import Mathlib

/-!
Formal model of the `lead-engine` repository (Python), shallow-embedded in
Lean 4.  Every definition mirrors a specific function of the source tree
`src/lead_engine/...`; the doc comment of each definition names the source
location it was translated from.

Modelling conventions:
* Python dictionaries with a fixed key set (configs, signal details) are
  modelled as structures whose field defaults are the corresponding
  `dict.get(key, default)` defaults used by the source.
* Python lists of strings are `List String`, Python ints are `Int`.
* Python float confidences are modelled as `ℚ`; every confidence computation
  in the source uses short decimal constants, so rational arithmetic agrees
  with the observable (rounded-to-2-decimals) results.
* `str.lower()` is modelled as ASCII lowercasing (`Char.toLower`), which
  agrees with Python on all ASCII text (all keywords and signal names in the
  source are ASCII).
-/

namespace LeadEngine

/-- Helper for Python `needle in hay`: does `hay` start with `needle`? -/
def leadsWith : List Char → List Char → Bool
  | [], _ => true
  | _ :: _, [] => false
  | a :: as, b :: bs => a = b && leadsWith as bs

/-- Python substring containment `needle in hay` on character lists. -/
def pyInL (needle : List Char) : List Char → Bool
  | [] => needle.isEmpty
  | h :: t => leadsWith needle (h :: t) || pyInL needle t

/-- Python `needle in hay` for strings. -/
def pyInS (needle hay : String) : Bool :=
  pyInL needle.data hay.data

/-- Python `s.lower()` (ASCII model). -/
def pyLower (s : String) : String :=
  ⟨s.data.map Char.toLower⟩

/-- Business type enum from `storage/models.py` (`class BusinessType`). -/
inductive BusinessType
  | product_company
  | service_agency
  | consultancy
  | system_integrator
  | staffing_recruiter
  | open_source_community
  | unknown
deriving DecidableEq

/-- The `.value` string of each `BusinessType` member. -/
def BusinessType.value : BusinessType → String
  | .product_company => "product_company"
  | .service_agency => "service_agency"
  | .consultancy => "consultancy"
  | .system_integrator => "system_integrator"
  | .staffing_recruiter => "staffing_recruiter"
  | .open_source_community => "open_source_community"
  | .unknown => "unknown"

/-- Route flag enum from `storage/models.py` (`class RouteFlag`). -/
inductive RouteFlag
  | outreach_mvp_client
  | outreach_partnership
  | ignore
deriving DecidableEq

/-- The `.value` string of each `RouteFlag` member. -/
def RouteFlag.value : RouteFlag → String
  | .outreach_mvp_client => "outreach_mvp_client"
  | .outreach_partnership => "outreach_partnership"
  | .ignore => "ignore"

/-- Recommended outreach channel enum from `storage/models.py`
(`class RecommendedChannel`). -/
inductive RecommendedChannel
  | linkedin_dm
  | x_dm
  | email
  | partner_intro
deriving DecidableEq

/-- The `.value` string of each `RecommendedChannel` member. -/
def RecommendedChannel.value : RecommendedChannel → String
  | .linkedin_dm => "linkedin_dm"
  | .x_dm => "x_dm"
  | .email => "email"
  | .partner_intro => "partner_intro"

/-- SignalSnapshot dict as consumed by `score_lead` / `route_lead`:
`snapshot["signals"]` plus the `signal_details` keys those functions read,
with the `dict.get` defaults of the source as field defaults. -/
structure Snapshot where
  signals : List String := []
  /-- `signal_details.get("engineering_roles_count", 0)` -/
  engineering_roles_count : Int := 0
  /-- `signal_details.get("job_titles", [])` -/
  job_titles : List String := []
  /-- `signal_details.get("roles_detected", [])` -/
  roles_detected : List String := []
  /-- `signal_details.get("funding_round", "")` -/
  funding_round : String := ""

/-- Classification result dict as consumed by `score_lead` / `route_lead`:
only the `business_type` key is read, with default
`BusinessType.UNKNOWN.value`. -/
structure Classification where
  business_type : String := "unknown"

/-- `scoring_config["mvp_intent_weights"]`, with the in-code `.get` defaults
of `score/scoring.py` (the nested `engineering_roles_count` dict is
flattened into the `bucket_*` fields). -/
structure MvpIntentWeights where
  ats_board_exists : Int := 20
  bucket_1_2 : Int := 8
  bucket_3_5 : Int := 15
  bucket_6_10 : Int := 20
  bucket_11_plus : Int := 12
  founding_0to1_language : Int := 12
  role_tags_backend_fullstack_devops_ml : Int := 8
  product_engineer_generalist : Int := 6
  pricing_page_detected : Int := 8
  docs_api_detected : Int := 8
  integrations_status_page_detected : Int := 4
  recent_launch_0_30d : Int := 10
  recent_launch_31_90d : Int := 4
  preseed_seed_funding_12mo : Int := 10
  series_a_18mo : Int := 8
  accelerator_member : Int := 8
  ecosystem_listed_grant_hackathon : Int := 4

/-- `scoring_config["mvp_intent_penalties"]` with the in-code defaults. -/
structure MvpIntentPenalties where
  services_agency_consultancy : Int := -25
  staffing_recruiter : Int := -40
  enterprise_noise_detected : Int := -10
  huge_hiring_indicators : Int := -10

/-- `scoring_config["partnership_fit_weights"]` with the in-code defaults. -/
structure PartnershipFitWeights where
  business_type_services_consultancy_integrator : Int := 20
  mentions_product_studio_mvp_dev : Int := 10
  mentions_white_label_overflow_referral : Int := 15
  hiring_engineers_capacity_pressure : Int := 10
  niche_alignment_ai_web3_saas_dev_tooling : Int := 10
  strong_portfolio_case_studies : Int := 6
  clear_inbound_channel_newsletter_community : Int := 6

/-- `scoring_config["partnership_fit_penalties"]` with the in-code
defaults. -/
structure PartnershipFitPenalties where
  staffing_recruiter_language : Int := -30
  extremely_broad_we_do_everything_agency : Int := -10

/-- `scoring_config["classification"]` thresholds read by the rule
classifier, with the in-code `.get` defaults. -/
structure ClassificationConfig where
  staffing_count_threshold : Int := 2
  services_product_delta : Int := 2

/-- Scoring config dict (`scoring.yaml` overridables). -/
structure ScoringConfig where
  mvp_intent_weights : MvpIntentWeights := {}
  mvp_intent_penalties : MvpIntentPenalties := {}
  partnership_fit_weights : PartnershipFitWeights := {}
  partnership_fit_penalties : PartnershipFitPenalties := {}
  classification : ClassificationConfig := {}

/-- `keywords_config["enterprise_indicators"]`. -/
structure EnterpriseIndicators where
  enterprise_noise : List String := []
  huge_hiring : List String := []

/-- `keywords_config["partnership_indicators"]`. -/
structure PartnershipIndicators where
  partner_fit : List String := []

/-- `keywords_config["product_indicators"]` (used by the rule classifier). -/
structure ProductIndicators where
  strong_product : List String := []
  sales_motion : List String := []

/-- Strong/moderate keyword pair (`services_indicators` /
`staffing_indicators` in the keywords config). -/
structure TierIndicators where
  strong : List String := []
  moderate : List String := []

/-- Keywords config dict (`keywords.yaml`), with empty-list defaults as in
the source's `.get(..., [])` chains. -/
structure KeywordsConfig where
  product_indicators : ProductIndicators := {}
  services_indicators : TierIndicators := {}
  staffing_indicators : TierIndicators := {}
  enterprise_indicators : EnterpriseIndicators := {}
  partnership_indicators : PartnershipIndicators := {}

/-- The keyword list of `_detect_founding_language` in `score/scoring.py`. -/
def founding_keywords : List String :=
  ["founding", "founder", "0 to 1", "0-1", "greenfield", "MVP"]

/-- `_detect_founding_language(signals, signal_details)` from
`score/scoring.py`: founding/0-to-1 language in job titles or signals. -/
def detect_founding_language (signals job_titles : List String) : Bool :=
  job_titles.any (fun t => founding_keywords.any (fun kw => pyInS kw (pyLower t)))
  || signals.any (fun s => pyInS "founding" (pyLower s))

/-- `_detect_enterprise_noise(signals, signal_details, keywords_config)` from
`score/scoring.py`.  (`score_lead` always passes a non-None config, so the
`keywords_config is None` early return of the source is unreachable here.) -/
def detect_enterprise_noise (signals job_titles : List String)
    (keywords_config : KeywordsConfig) : Bool :=
  let enterprise_keywords := keywords_config.enterprise_indicators.enterprise_noise
  let huge_hiring_keywords := keywords_config.enterprise_indicators.huge_hiring
  let all_text := pyLower (String.intercalate " " (job_titles ++ signals))
  (enterprise_keywords ++ huge_hiring_keywords).any
    (fun kw => pyInS (pyLower kw) all_text)

/-- Accumulator step for `mvp_score += score; breakdown[key] = score`
(each breakdown key is written at most once, so the ordered association
list is exactly the Python dict). -/
def addItem (st : Int × List (String × Int)) (key : String) (pts : Int) :
    Int × List (String × Int) :=
  (st.1 + pts, st.2 ++ [(key, pts)])

/-- Result of `score_lead` (the `score_breakdown` dict's `"mvp"` and
`"partnership"` sub-dicts are the two breakdown fields). -/
structure ScoreResult where
  mvp_intent_score : Int
  partnership_fit_score : Int
  mvp_breakdown : List (String × Int)
  partnership_breakdown : List (String × Int)
deriving DecidableEq

/-- `score_lead(company, snapshot, classification, scoring_config,
keywords_config)` from `score/scoring.py` (lines 49-291).  The `company`
argument is only used for logging and is omitted. -/
def score_lead (snapshot : Snapshot) (classification : Classification)
    (scoring_config : ScoringConfig := {}) (keywords_config : KeywordsConfig := {}) :
    ScoreResult :=
  let weights := scoring_config.mvp_intent_weights
  let penalties := scoring_config.mvp_intent_penalties
  let partnership_weights := scoring_config.partnership_fit_weights
  let partnership_penalties := scoring_config.partnership_fit_penalties
  let signals := snapshot.signals
  let job_titles := snapshot.job_titles
  let roles_detected := snapshot.roles_detected
  let engineering_count := snapshot.engineering_roles_count
  -- MVP intent scoring
  let st0 : Int × List (String × Int) := (0, [])
  let st1 := if signals.contains "ats_board_found" then
      addItem st0 "ats_board_found" weights.ats_board_exists else st0
  let st2 :=
    (if 1 ≤ engineering_count ∧ engineering_count ≤ 2 then
      addItem st1 "engineering_roles_1_2" weights.bucket_1_2
    else if 3 ≤ engineering_count ∧ engineering_count ≤ 5 then
      addItem st1 "engineering_roles_3_5" weights.bucket_3_5
    else if 6 ≤ engineering_count ∧ engineering_count ≤ 10 then
      addItem st1 "engineering_roles_6_10" weights.bucket_6_10
    else if 11 ≤ engineering_count then
      addItem st1 "engineering_roles_11_plus" weights.bucket_11_plus
    else st1)
  let st3 := if detect_founding_language signals job_titles then
      addItem st2 "founding_0to1_language" weights.founding_0to1_language else st2
  let st4 := if (["backend", "fullstack", "devops", "ml_ai"] : List String).any
        (fun role => roles_detected.contains role) then
      addItem st3 "relevant_role_tags" weights.role_tags_backend_fullstack_devops_ml else st3
  let st5 := if job_titles.any (fun t =>
        pyInS "product engineer" (pyLower t) || pyInS "engineering generalist" (pyLower t)) then
      addItem st4 "product_engineer_generalist" weights.product_engineer_generalist else st4
  let st6 := if signals.contains "product_pricing_found" || signals.contains "pricing_page_detected" then
      addItem st5 "pricing_page" weights.pricing_page_detected else st5
  let st7 := if signals.contains "product_docs_found" || signals.contains "docs_api_detected" then
      addItem st6 "docs_api" weights.docs_api_detected else st6
  let st8 := if signals.contains "integrations_status_page_detected" then
      addItem st7 "integrations_status_page" weights.integrations_status_page_detected else st7
  let st9 :=
    (if signals.contains "recent_launch_0_30d" then
      addItem st8 "recent_launch_0_30d" weights.recent_launch_0_30d
    else if signals.contains "recent_launch_31_90d" then
      addItem st8 "recent_launch_31_90d" weights.recent_launch_31_90d
    else st8)
  let st10 :=
    (if signals.contains "recent_funding" then
      let funding_round := pyLower snapshot.funding_round
      if (["pre-seed", "seed"] : List String).contains funding_round then
        addItem st9 "preseed_seed_funding" weights.preseed_seed_funding_12mo
      else if pyInS "series a" funding_round then
        addItem st9 "series_a_funding" weights.series_a_18mo
      else
        addItem st9 "recent_funding" weights.preseed_seed_funding_12mo
    else st9)
  let st11 := if signals.contains "accelerator_member" then
      addItem st10 "accelerator_member" weights.accelerator_member else st10
  let st12 := if signals.contains "ecosystem_listed" || signals.contains "ecosystem_listed_grant_hackathon" then
      addItem st11 "ecosystem_listed" weights.ecosystem_listed_grant_hackathon else st11
  -- penalties
  let business_type := classification.business_type
  let st13 := if ([BusinessType.service_agency.value, BusinessType.consultancy.value,
        BusinessType.system_integrator.value] : List String).contains business_type then
      addItem st12 "services_penalty" penalties.services_agency_consultancy else st12
  let st14 := if business_type = BusinessType.staffing_recruiter.value then
      addItem st13 "staffing_penalty" penalties.staffing_recruiter else st13
  let st15 := if detect_enterprise_noise signals job_titles keywords_config then
      addItem st14 "enterprise_noise_penalty" penalties.enterprise_noise_detected else st14
  let st16 :=
    (if detect_enterprise_noise signals job_titles keywords_config then
      let huge_hiring_keywords := keywords_config.enterprise_indicators.huge_hiring
      let all_text := pyLower (String.intercalate " " (job_titles ++ signals))
      if huge_hiring_keywords.any (fun kw => pyInS (pyLower kw) all_text) then
        addItem st15 "huge_hiring_penalty" penalties.huge_hiring_indicators
      else st15
    else st15)
  let mvp_score := max 0 (min 100 st16.1)
  -- Partnership fit score: only computed for service-type companies
  let partnership :=
    (if ([BusinessType.service_agency.value, BusinessType.consultancy.value,
        BusinessType.system_integrator.value] : List String).contains business_type then
      let ps1 := addItem (0, []) "services_type_confirmed"
        partnership_weights.business_type_services_consultancy_integrator
      let all_text := pyLower (String.intercalate " " (job_titles ++ signals))
      let ps2 := if (["product studio", "mvp development", "mvp dev"] : List String).any
            (fun kw => pyInS kw all_text) then
          addItem ps1 "product_studio_mvp_dev" partnership_weights.mentions_product_studio_mvp_dev else ps1
      let ps3 := if keywords_config.partnership_indicators.partner_fit.any
            (fun kw => pyInS kw all_text) then
          addItem ps2 "white_label_overflow_referral"
            partnership_weights.mentions_white_label_overflow_referral else ps2
      let ps4 := if engineering_count > 0 then
          addItem ps3 "hiring_engineers" partnership_weights.hiring_engineers_capacity_pressure else ps3
      let ps5 := if (["ml_ai", "web3"] : List String).any (fun role => roles_detected.contains role)
            || (["hiring_ai", "hiring_web3"] : List String).any (fun sig => signals.contains sig) then
          addItem ps4 "niche_alignment" partnership_weights.niche_alignment_ai_web3_saas_dev_tooling else ps4
      let ps6 := if pyInS "case_studies" all_text || pyInS "portfolio" all_text then
          addItem ps5 "case_studies" partnership_weights.strong_portfolio_case_studies else ps5
      let ps7 := if (["newsletter", "community", "blog"] : List String).any
            (fun kw => pyInS kw all_text) then
          addItem ps6 "inbound_channel" partnership_weights.clear_inbound_channel_newsletter_community else ps6
      let ps8 := if business_type = BusinessType.staffing_recruiter.value then
          addItem ps7 "staffing_penalty" partnership_penalties.staffing_recruiter_language else ps7
      let ps9 := if pyInS "we do everything" all_text || pyInS "full service" all_text then
          addItem ps8 "broad_agency_penalty"
            partnership_penalties.extremely_broad_we_do_everything_agency else ps8
      (max 0 (min 100 ps9.1), ps9.2)
    else ((0 : Int), ([] : List (String × Int))))
  { mvp_intent_score := mvp_score
    partnership_fit_score := partnership.1
    mvp_breakdown := st16.2
    partnership_breakdown := partnership.2 }

/-- `routing_config["routing"]` dict read by `route_lead`
(`routing_rules.get("strong_hiring_threshold", 3)`). -/
structure RoutingConfig where
  strong_hiring_threshold : Int := 3

/-- `route_lead(classification, scores, snapshot, routing_config)` from
`score/router.py` (lines 12-92).  The `scores` argument is accepted but
never read, exactly as in the source; `snapshot=None` corresponds to the
default (empty) `Snapshot`. -/
def route_lead (classification : Classification) (scores : ScoreResult)
    (snapshot : Snapshot := {}) (routing_config : RoutingConfig := {}) :
    String × Option String :=
  let business_type := classification.business_type
  let signals := snapshot.signals
  let signal_details_count := snapshot.engineering_roles_count
  let strong_hiring_threshold := routing_config.strong_hiring_threshold
  let pair : RouteFlag × Option RecommendedChannel :=
    (if business_type = BusinessType.product_company.value then
      (RouteFlag.outreach_mvp_client,
        some (if signals.contains "recent_launch_0_30d" || signals.contains "recent_launch_31_90d" then
            RecommendedChannel.x_dm
          else if signals.contains "ecosystem_listed" then
            RecommendedChannel.x_dm
          else
            RecommendedChannel.linkedin_dm))
    else if ([BusinessType.service_agency.value, BusinessType.consultancy.value,
        BusinessType.system_integrator.value] : List String).contains business_type then
      (RouteFlag.outreach_partnership, some RecommendedChannel.linkedin_dm)
    else if business_type = BusinessType.staffing_recruiter.value then
      (RouteFlag.ignore, none)
    else if business_type = BusinessType.unknown.value then
      (if signal_details_count ≥ strong_hiring_threshold || signals.contains "hiring_engineering" then
        (RouteFlag.outreach_mvp_client, some RecommendedChannel.linkedin_dm)
      else
        (RouteFlag.ignore, none))
    else
      (RouteFlag.ignore, none))
  (pair.1.value, pair.2.map RecommendedChannel.value)

/-! Rule-based classifier (`classify/rule_classifier.py`).  HTML text
extraction (`_extract_text_from_html`, BeautifulSoup-based) is abstracted:
`pages` maps each page label to the extracted text of that page (the
extraction lowercases and whitespace-collapses; `_count_keywords` lowercases
again anyway, and the substring checks of the decision rules operate on the
already-lowercased concatenation, as in the source). -/

/-- ASCII model of the regex `\w` character class used by the
word-boundary keyword counting (`\b{kw}\b`); all configured keywords are
ASCII. -/
def isWordChar (c : Char) : Bool :=
  (48 ≤ c.toNat && c.toNat ≤ 57) || (65 ≤ c.toNat && c.toNat ≤ 90)
    || (97 ≤ c.toNat && c.toNat ≤ 122) || c.toNat = 95

/-- Word-ness of an optional character; out-of-string counts as non-word. -/
def optWord : Option Char → Bool
  | none => false
  | some c => isWordChar c

/-- Regex `\b`: a word boundary lies between two (optional) characters iff
exactly one side is a word character. -/
def wordBoundary (a b : Option Char) : Bool :=
  optWord a != optWord b

/-- Count of non-overlapping, left-to-right matches of `\b{re.escape(kw)}\b`
in the text (the model of one `re.findall` call of `_count_keywords`).
`prev` is the character just before the current scan position; after a
match the scan resumes past the matched text, tracked structurally by the
`skip` counter (while `skip > 0` the scanner only consumes characters). -/
def countOcc (kw : List Char) : Nat → Option Char → List Char → Nat
  | _, prev, [] => if kw.isEmpty && wordBoundary prev none then 1 else 0
  | Nat.succ skip, _, c :: t => countOcc kw skip (some c) t
  | 0, prev, c :: t =>
    if kw.isEmpty then
      (if wordBoundary prev (some c) then 1 else 0) + countOcc kw 0 (some c) t
    else
      if leadsWith kw (c :: t)
          && wordBoundary prev (some c)
          && wordBoundary kw.getLast? (((c :: t).drop kw.length).head?) then
        1 + countOcc kw (kw.length - 1) (some c) t
      else
        countOcc kw 0 (some c) t

/-- `_count_keywords(text, keywords)` from `classify/rule_classifier.py`:
sum over keywords of whole-word occurrence counts in the lowercased text. -/
def count_keywords (text : String) (keywords : List String) : Nat :=
  keywords.foldl (fun count kw => count + countOcc (pyLower kw).data 0 none (pyLower text).data) 0

/-- The `all_text` accumulation of `classify_domain`:
`all_text += f" {page_text}"` over the pages dict. -/
def page_text (pages : List (String × String)) : String :=
  pages.foldl (fun acc page => acc ++ " " ++ page.2) ""

/-- Weighted product count: `product_strong * 2 + product_moderate`. -/
def product_count_of (pages : List (String × String)) (kc : KeywordsConfig) : Int :=
  (count_keywords (page_text pages) kc.product_indicators.strong_product : Int) * 2
    + (count_keywords (page_text pages) kc.product_indicators.sales_motion : Int)

/-- Weighted services count: `services_strong * 2 + services_moderate`. -/
def services_count_of (pages : List (String × String)) (kc : KeywordsConfig) : Int :=
  (count_keywords (page_text pages) kc.services_indicators.strong : Int) * 2
    + (count_keywords (page_text pages) kc.services_indicators.moderate : Int)

/-- Weighted staffing count: `staffing_strong * 2 + staffing_moderate`. -/
def staffing_count_of (pages : List (String × String)) (kc : KeywordsConfig) : Int :=
  (count_keywords (page_text pages) kc.staffing_indicators.strong : Int) * 2
    + (count_keywords (page_text pages) kc.staffing_indicators.moderate : Int)

/-- Python whitespace test for a single character (ASCII model of
`str.strip()`'s whitespace set). -/
def isPySpace (c : Char) : Bool :=
  c.toNat = 32 || c.toNat = 9 || c.toNat = 10 || c.toNat = 13 || c.toNat = 11 || c.toNat = 12

/-- Python `not s.strip()`: every character is whitespace. -/
def pyIsBlank (s : String) : Bool :=
  s.data.all isPySpace

/-- Python `min(a, b)` on the model's rationals. -/
def pyMinQ (a b : ℚ) : ℚ :=
  if b < a then b else a

/-- Python `round(q, 2)` on the model's rationals (round half to even). -/
def pyRound2 (q : ℚ) : ℚ :=
  let scaled := q * 100
  let fl : Int := ⌊scaled⌋
  let frac := scaled - fl
  let r : Int :=
    if frac < 1/2 then fl
    else if 1/2 < frac then fl + 1
    else if fl % 2 = 0 then fl else fl + 1
  (r : ℚ) / 100

/-- Result dict of `classify_domain`. -/
structure ClassifyResult where
  business_type : String
  confidence : ℚ
  reasons : List String
  enterprise_detected : Bool
  partnership_fit_detected : Bool
deriving DecidableEq

/-- `classify_domain(domain, pages, keywords_config, scoring_config)` from
`classify/rule_classifier.py` (lines 71-217). -/
def classify_domain (domain : String) (pages : List (String × String))
    (keywords_config : KeywordsConfig := {}) (scoring_config : ScoringConfig := {}) :
    ClassifyResult :=
  let classification_config := scoring_config.classification
  let all_text := page_text pages
  if pyIsBlank all_text then
    { business_type := BusinessType.unknown.value
      confidence := 0
      reasons := ["No text content found on pages"]
      enterprise_detected := false
      partnership_fit_detected := false }
  else
    let product_count := product_count_of pages keywords_config
    let services_count := services_count_of pages keywords_config
    let staffing_count := staffing_count_of pages keywords_config
    let enterprise_noise_count :=
      count_keywords all_text keywords_config.enterprise_indicators.enterprise_noise
    let huge_hiring_count :=
      count_keywords all_text keywords_config.enterprise_indicators.huge_hiring
    let enterprise_detected := enterprise_noise_count > 0 || huge_hiring_count > 0
    let partnership_fit_count :=
      count_keywords all_text keywords_config.partnership_indicators.partner_fit
    let partnership_fit_detected := partnership_fit_count > 0
    let page_paths := pages.map (fun page => page.1)
    let has_pricing := page_paths.any (fun path => pyInS "/pricing" path)
    let has_docs := page_paths.any (fun path => pyInS "/docs" path || pyInS "/documentation" path)
    let has_services := page_paths.any (fun path => pyInS "/services" path)
    let staffing_threshold := classification_config.staffing_count_threshold
    let services_product_delta := classification_config.services_product_delta
    let step : BusinessType × ℚ × List String :=
      (if staffing_count ≥ staffing_threshold then
        (BusinessType.staffing_recruiter,
          pyMinQ (9/10) (1/2 + (staffing_count : ℚ) / 10),
          ["Found " ++ toString staffing_count ++ " staffing/recruiting indicators"])
      else if services_count - product_count ≥ services_product_delta then
        let bt :=
          if pyInS "consulting" all_text || pyInS "consultant" all_text then
            BusinessType.consultancy
          else if pyInS "agency" all_text then
            BusinessType.service_agency
          else if pyInS "integrator" all_text || pyInS "integration" all_text then
            BusinessType.system_integrator
          else
            BusinessType.service_agency
        let rs := ["Services indicators (" ++ toString services_count
          ++ ") significantly exceed product indicators (" ++ toString product_count ++ ")"]
        let rs := if has_services then rs ++ ["Services page found"] else rs
        let rs := if partnership_fit_detected then
            rs ++ ["Partnership fit indicators detected"] else rs
        (bt, pyMinQ (17/20) (1/2 + ((services_count - product_count : Int) : ℚ) / 10), rs)
      else if product_count - services_count ≥ services_product_delta then
        let rs := ["Product indicators (" ++ toString product_count
          ++ ") significantly exceed services indicators (" ++ toString services_count ++ ")"]
        let rs := if has_pricing then rs ++ ["Pricing page found (strong product signal)"] else rs
        let rs := if has_docs then rs ++ ["Documentation page found (strong product signal)"] else rs
        (BusinessType.product_company,
          pyMinQ (9/10) (3/5 + ((product_count - services_count : Int) : ℚ) / 10), rs)
      else if has_pricing || has_docs then
        (BusinessType.product_company, 3/5,
          ["Pricing or documentation page found, suggesting product company"])
      else if has_services then
        (BusinessType.service_agency, 3/5,
          ["Services page found, suggesting service agency"])
      else
        (BusinessType.unknown, 3/10, ["Insufficient evidence for classification"]))
    let business_type := step.1
    let confidence := step.2.1
    let reasons := step.2.2
    let reasons := if enterprise_detected then
        reasons ++ ["Enterprise noise indicators detected"] else reasons
    let total_keywords := product_count + services_count + staffing_count
    let confidence := if total_keywords < 3 then confidence * (7/10) else confidence
    { business_type := business_type.value
      confidence := pyRound2 confidence
      reasons := reasons
      enterprise_detected := enterprise_detected
      partnership_fit_detected := partnership_fit_detected }

/-!
URL normalization (`normalize/url_normalizer.py`, `normalize/ats_normalizer.py`).

The source delegates to CPython's `urllib.parse`; the definitions below model
the relevant `urllib.parse` functions (`urlparse`, `urlunparse`, `parse_qs`
with `keep_blank_values=True`, `urlencode(..., doseq=True)`, `quote_plus`,
`unquote`) at CPython 3.10.x semantics, working on character lists.
`str.lower()` is the ASCII model as above.
-/

/-- First occurrence split: `l = pre ++ ch :: post` with `ch ∉ pre`
(Python `s.split(ch, 1)` when `ch` occurs, `s.find(ch)`). -/
def breakAtFirst (ch : Char) : List Char → Option (List Char × List Char)
  | [] => none
  | c :: t =>
    if c = ch then some ([], t)
    else match breakAtFirst ch t with
      | none => none
      | some (a, b) => some (c :: a, b)

/-- Last occurrence split: `l = pre ++ ch :: post` with `ch ∉ post`
(Python `s.rfind(ch)` / `s.rsplit(ch, 1)`). -/
def breakAtLast (ch : Char) (l : List Char) : Option (List Char × List Char) :=
  match breakAtFirst ch l.reverse with
  | none => none
  | some (rb, ra) => some (ra.reverse, rb.reverse)

/-- Python `s.split(ch)` (all parts, empties preserved). -/
def splitOnCharL (ch : Char) : List Char → List (List Char)
  | [] => [[]]
  | c :: t =>
    if c = ch then [] :: splitOnCharL ch t
    else match splitOnCharL ch t with
      | [] => [[c]]
      | p :: ps => (c :: p) :: ps

/-- Python `ch.join(parts)` for a one-character separator. -/
def intercalateChar (ch : Char) : List (List Char) → List Char
  | [] => []
  | p :: ps => p ++ (ps.map (fun q => ch :: q)).flatten

/-- Characters allowed in a URL scheme (`urllib.parse.scheme_chars`). -/
def isSchemeChar (c : Char) : Bool :=
  (65 ≤ c.toNat && c.toNat ≤ 90) || (97 ≤ c.toNat && c.toNat ≤ 122)
    || (48 ≤ c.toNat && c.toNat ≤ 57) || c = '+' || c = '-' || c = '.'

/-- `_WHATWG_C0_CONTROL_OR_SPACE` membership (codepoints 0x00-0x20). -/
def isC0OrSpace (c : Char) : Bool :=
  c.toNat ≤ 32

/-- Keep-filter for `_UNSAFE_URL_BYTES_TO_REMOVE` (tab, CR, LF removal). -/
def keepUrlByte (c : Char) : Bool :=
  !(c = '\t' || c = '\r' || c = '\n')

/-- The input sanitisation of `urlsplit`: strip leading C0-control/space,
then remove every tab/CR/LF. -/
def cleanUrl (l : List Char) : List Char :=
  (l.dropWhile isC0OrSpace).filter keepUrlByte

/-- The scheme split of `urlsplit`: split at the first `':'` when the
prefix before it is non-empty and made of scheme characters, lowercasing
the scheme (CPython 3.10). -/
def splitScheme (l : List Char) : List Char × List Char :=
  match breakAtFirst ':' l with
  | none => ([], l)
  | some (pre, post) =>
    if !pre.isEmpty && pre.all isSchemeChar then (pre.map Char.toLower, post) else ([], l)

/-- Netloc delimiter test (`_splitnetloc` stops at `/`, `?`, `#`). -/
def notNetlocDelim (c : Char) : Bool :=
  !(c = '/' || c = '?' || c = '#')

/-- `_splitnetloc(url, 2)`: the authority runs from after `"//"` to the
first delimiter. -/
def splitNetloc (l : List Char) : List Char × List Char :=
  let rest := l.drop 2
  (rest.takeWhile notNetlocDelim, rest.dropWhile notNetlocDelim)

/-- `urlsplit` result tuple. -/
structure SplitParts where
  scheme : List Char
  netloc : List Char
  path : List Char
  query : List Char
  fragment : List Char
deriving DecidableEq

/-- `urlparse` result tuple (with path params). -/
structure ParseParts where
  scheme : List Char
  netloc : List Char
  path : List Char
  params : List Char
  query : List Char
  fragment : List Char
deriving DecidableEq

/-- `urllib.parse.urlsplit` (CPython 3.10.x): sanitise, split scheme,
authority (rejecting unbalanced IPv6 brackets with `ValueError`, modelled
as `Except.error`), fragment, then query. -/
def pyUrlsplit (l : List Char) : Except Unit SplitParts :=
  let url0 := cleanUrl l
  let sp := splitScheme url0
  let scheme := sp.1
  let url1 := sp.2
  let np := if url1.take 2 = ['/', '/'] then splitNetloc url1 else ([], url1)
  let netloc := np.1
  let url2 := np.2
  if ('[' ∈ netloc ∧ ']' ∉ netloc) ∨ (']' ∈ netloc ∧ '[' ∉ netloc) then
    .error ()
  else
    let fp := match breakAtFirst '#' url2 with
      | some (a, b) => (a, b)
      | none => (url2, [])
    let qp := match breakAtFirst '?' fp.1 with
      | some (a, b) => (a, b)
      | none => (fp.1, [])
    .ok { scheme := scheme, netloc := netloc, path := qp.1, query := qp.2, fragment := fp.2 }

/-- `urllib.parse._splitparams`: split path params at the first `';'` of
the last path segment (only called when the path contains a `';'`). -/
def splitparams (u : List Char) : List Char × List Char :=
  if '/' ∈ u then
    match breakAtLast '/' u with
    | some (a, b) =>
      (match breakAtFirst ';' b with
       | some (b1, b2) => (a ++ '/' :: b1, b2)
       | none => (u, []))
    | none => (u, [])
  else
    match breakAtFirst ';' u with
    | some (a, b) => (a, b)
    | none => (u, [])

/-- `urllib.parse.urlparse`: `urlsplit` plus the params split. -/
def pyUrlparse (l : List Char) : Except Unit ParseParts :=
  match pyUrlsplit l with
  | .error e => .error e
  | .ok s =>
    let pp := if ';' ∈ s.path then splitparams s.path else (s.path, [])
    .ok { scheme := s.scheme, netloc := s.netloc, path := pp.1, params := pp.2,
          query := s.query, fragment := s.fragment }

/-- `urllib.parse.urlunsplit`. -/
def pyUrlunsplit (s : SplitParts) : List Char :=
  let url := s.path
  let url :=
    if !s.netloc.isEmpty || decide (url.take 2 = ['/', '/']) then
      let url := if url ≠ [] ∧ url.head? ≠ some '/' then '/' :: url else url
      '/' :: '/' :: (s.netloc ++ url)
    else url
  let url := if !s.scheme.isEmpty then s.scheme ++ ':' :: url else url
  let url := if !s.query.isEmpty then url ++ '?' :: s.query else url
  if !s.fragment.isEmpty then url ++ '#' :: s.fragment else url

/-- `urllib.parse.urlunparse`: re-attach params, then `urlunsplit`. -/
def pyUrlunparse (p : ParseParts) : List Char :=
  let url := if !p.params.isEmpty then p.path ++ ';' :: p.params else p.path
  pyUrlunsplit { scheme := p.scheme, netloc := p.netloc, path := url,
                 query := p.query, fragment := p.fragment }

/-! UTF-8 and percent-encoding (`urllib.parse.quote_plus` / `unquote`). -/

/-- UTF-8 encoding of one scalar value. -/
def utf8EncodeChar (c : Char) : List Nat :=
  let n := c.toNat
  if n < 0x80 then [n]
  else if n < 0x800 then [0xC0 + n / 64, 0x80 + n % 64]
  else if n < 0x10000 then [0xE0 + n / 4096, 0x80 + (n / 64) % 64, 0x80 + n % 64]
  else [0xF0 + n / 262144, 0x80 + (n / 4096) % 64, 0x80 + (n / 64) % 64, 0x80 + n % 64]

/-- UTF-8 encoding of a string (as bytes 0-255). -/
def utf8Encode (l : List Char) : List Nat :=
  (l.map utf8EncodeChar).flatten

/-- UTF-8 continuation byte test. -/
def isCont (b : Nat) : Bool :=
  0x80 ≤ b && b ≤ 0xBF

/-- Admissible first continuation byte of a three-byte sequence
(excludes overlong encodings and surrogates). -/
def cont1OK3 (b b2 : Nat) : Bool :=
  if b = 0xE0 then 0xA0 ≤ b2 && b2 ≤ 0xBF
  else if b = 0xED then 0x80 ≤ b2 && b2 ≤ 0x9F
  else isCont b2

/-- Admissible first continuation byte of a four-byte sequence
(excludes overlong encodings and values above U+10FFFF). -/
def cont1OK4 (b b2 : Nat) : Bool :=
  if b = 0xF0 then 0x90 ≤ b2 && b2 ≤ 0xBF
  else if b = 0xF4 then 0x80 ≤ b2 && b2 ≤ 0x8F
  else isCont b2

/-- The U+FFFD replacement character. -/
def replChar : Char :=
  Char.ofNat 0xFFFD

/-- UTF-8 decoding with `errors='replace'` (one U+FFFD per maximal invalid
subpart, as CPython's decoder emits). -/
def utf8DecodeReplace : List Nat → List Char
  | [] => []
  | b :: rest =>
    if b < 0x80 then Char.ofNat b :: utf8DecodeReplace rest
    else if 0xC2 ≤ b ∧ b ≤ 0xDF then
      match rest with
      | b2 :: rest2 =>
        if isCont b2 then
          Char.ofNat ((b - 0xC0) * 64 + (b2 - 0x80)) :: utf8DecodeReplace rest2
        else replChar :: utf8DecodeReplace (b2 :: rest2)
      | [] => [replChar]
    else if 0xE0 ≤ b ∧ b ≤ 0xEF then
      match rest with
      | b2 :: rest2 =>
        if cont1OK3 b b2 then
          match rest2 with
          | b3 :: rest3 =>
            if isCont b3 then
              Char.ofNat ((b - 0xE0) * 4096 + (b2 - 0x80) * 64 + (b3 - 0x80))
                :: utf8DecodeReplace rest3
            else replChar :: utf8DecodeReplace (b3 :: rest3)
          | [] => [replChar]
        else replChar :: utf8DecodeReplace (b2 :: rest2)
      | [] => [replChar]
    else if 0xF0 ≤ b ∧ b ≤ 0xF4 then
      match rest with
      | b2 :: rest2 =>
        if cont1OK4 b b2 then
          match rest2 with
          | b3 :: rest3 =>
            if isCont b3 then
              match rest3 with
              | b4 :: rest4 =>
                if isCont b4 then
                  Char.ofNat ((b - 0xF0) * 262144 + (b2 - 0x80) * 4096
                      + (b3 - 0x80) * 64 + (b4 - 0x80))
                    :: utf8DecodeReplace rest4
                else replChar :: utf8DecodeReplace (b4 :: rest4)
              | [] => [replChar]
            else replChar :: utf8DecodeReplace (b3 :: rest3)
          | [] => [replChar]
        else replChar :: utf8DecodeReplace (b2 :: rest2)
      | [] => [replChar]
    else replChar :: utf8DecodeReplace rest

/-- Hex digit character for a value below 16 (uppercase, as `quote`
emits). -/
def hexUpper (n : Nat) : Char :=
  if n < 10 then Char.ofNat (48 + n) else Char.ofNat (55 + n)

/-- Value of a hex digit character, if it is one (case-insensitive, as
`unquote` accepts). -/
def hexVal? (c : Char) : Option Nat :=
  if 48 ≤ c.toNat ∧ c.toNat ≤ 57 then some (c.toNat - 48)
  else if 65 ≤ c.toNat ∧ c.toNat ≤ 70 then some (c.toNat - 55)
  else if 97 ≤ c.toNat ∧ c.toNat ≤ 102 then some (c.toNat - 87)
  else none

/-- Tokenise a percent-encoded string: each valid `%XX` becomes a byte,
anything else stays a literal character. -/
def pctTokens : List Char → List (Char ⊕ Nat)
  | [] => []
  | c :: rest =>
    if c = '%' then
      match rest with
      | h1 :: h2 :: rest2 =>
        (match hexVal? h1, hexVal? h2 with
         | some v1, some v2 => Sum.inr (v1 * 16 + v2) :: pctTokens rest2
         | some _, none => Sum.inl c :: pctTokens (h1 :: h2 :: rest2)
         | none, _ => Sum.inl c :: pctTokens (h1 :: h2 :: rest2))
      | [h1] => Sum.inl c :: pctTokens [h1]
      | [] => Sum.inl c :: pctTokens []
    else Sum.inl c :: pctTokens rest

/-- Decode token runs: maximal runs of escape bytes are UTF-8 decoded
together (as `unquote` does via `unquote_to_bytes` + one `.decode`),
literals pass through. -/
def detokAux : List Nat → List (Char ⊕ Nat) → List Char
  | acc, [] => utf8DecodeReplace acc.reverse
  | acc, Sum.inr b :: ts => detokAux (b :: acc) ts
  | acc, Sum.inl c :: ts => utf8DecodeReplace acc.reverse ++ c :: detokAux [] ts

/-- `urllib.parse.unquote(s, encoding='utf-8', errors='replace')`. -/
def pyUnquote (l : List Char) : List Char :=
  detokAux [] (pctTokens l)

/-- Byte-level safe set of `quote`: `_ALWAYS_SAFE` is letters, digits and
`_.-~`. -/
def alwaysSafeByte (b : Nat) : Bool :=
  (48 ≤ b && b ≤ 57) || (65 ≤ b && b ≤ 90) || (97 ≤ b && b ≤ 122)
    || b = 95 || b = 46 || b = 45 || b = 126

/-- `urllib.parse.quote` at byte level: safe bytes stay, the rest become
uppercase `%XX` escapes. -/
def quoteBytes (safe : List Char) : List Nat → List Char
  | [] => []
  | b :: rest =>
    (if alwaysSafeByte b || Char.ofNat b ∈ safe then [Char.ofNat b]
     else ['%', hexUpper (b / 16), hexUpper (b % 16)]) ++ quoteBytes safe rest

/-- `urllib.parse.quote(s, safe)` (UTF-8 encoding of the text, then
byte-level quoting). -/
def pyQuote (l : List Char) (safe : List Char) : List Char :=
  quoteBytes safe (utf8Encode l)

/-- `urllib.parse.quote_plus(s, safe='')`: like `quote` but spaces become
`'+'` (via the space-safe branch of the source). -/
def pyQuotePlus (l : List Char) : List Char :=
  if ' ' ∉ l then pyQuote l []
  else (pyQuote l [' ']).map (fun c => if c = ' ' then '+' else c)

/-- Python `s.replace('+', ' ')`, applied by `parse_qsl` before
unquoting. -/
def replacePlus (l : List Char) : List Char :=
  l.map (fun c => if c = '+' then ' ' else c)

/-- The per-pair body of `parse_qsl(qs, keep_blank_values=True)` over the
`'&'`-split parts: empty parts are dropped, a missing `'='` yields a blank
value, names and values are plus-decoded then unquoted. -/
def parseQslParts : List (List Char) → List (List Char × List Char)
  | [] => []
  | nv :: rest =>
    if nv = [] then parseQslParts rest
    else
      let p := match breakAtFirst '=' nv with
        | some (a, b) => (a, b)
        | none => (nv, [])
      (pyUnquote (replacePlus p.1), pyUnquote (replacePlus p.2)) :: parseQslParts rest

/-- `urllib.parse.parse_qsl(qs, keep_blank_values=True)`. -/
def parse_qsl (qs : List Char) : List (List Char × List Char) :=
  parseQslParts (if qs = [] then [] else splitOnCharL '&' qs)

/-- One dict-insertion step of `parse_qs`: append the value to an existing
key or add a new key at the end (Python dict insertion order). -/
def addPair : List (List Char × List (List Char)) → List Char × List Char →
    List (List Char × List (List Char))
  | [], (k, v) => [(k, [v])]
  | (k0, vs) :: rest, (k, v) =>
    if k0 = k then (k0, vs ++ [v]) :: rest else (k0, vs) :: addPair rest (k, v)

/-- `urllib.parse.parse_qs(qs, keep_blank_values=True)` as an ordered
association list. -/
def parse_qs (qs : List Char) : List (List Char × List (List Char)) :=
  (parse_qsl qs).foldl addPair []

/-- `urllib.parse.urlencode(d, doseq=True)` over the ordered dict. -/
def urlencodeDoseq (d : List (List Char × List (List Char))) : List Char :=
  intercalateChar '&'
    ((d.map (fun kv => kv.2.map (fun v => pyQuotePlus kv.1 ++ '=' :: pyQuotePlus v))).flatten)

/-- `DENYLIST_PARAMS` from `normalize/url_normalizer.py`. -/
def DENYLIST_PARAMS : List (List Char) :=
  (["utm_source", "utm_medium", "utm_campaign", "utm_term", "utm_content",
    "ref", "fbclid", "gclid", "source"] : List String).map String.data

/-- The default-port removal of `normalize_url`: if the (lowercased)
authority has a `':'`, drop a trailing `:80`/`:443` matching the scheme. -/
def stripDefaultPort (scheme netloc : List Char) : List Char :=
  if ':' ∈ netloc then
    match breakAtLast ':' netloc with
    | some (host, port) =>
      if (scheme = "http".data ∧ port = "80".data)
          ∨ (scheme = "https".data ∧ port = "443".data) then host
      else netloc
    | none => netloc
  else netloc

/-- The query rewrite of `normalize_url`: parse, drop denylisted keys
(case-insensitive), re-encode (empty filtered dict gives an empty
query). -/
def normQuery (q : List Char) : List Char :=
  let query_params := parse_qs q
  let filtered_params := query_params.filter
    (fun kv => ¬ (kv.1.map Char.toLower) ∈ DENYLIST_PARAMS)
  if filtered_params ≠ [] then urlencodeDoseq filtered_params else []

/-- `parsed.path.rstrip("/")`. -/
def rstripSlash (p : List Char) : List Char :=
  (p.reverse.dropWhile (fun c => c = '/')).reverse

/-- The component rewrite of `normalize_url`: lowercase scheme and
authority, drop a default port, filter the query, strip trailing slashes,
drop the fragment; params pass through. -/
def normParts (p : ParseParts) : ParseParts :=
  let scheme := p.scheme.map Char.toLower
  let netloc := stripDefaultPort scheme (p.netloc.map Char.toLower)
  { scheme := scheme, netloc := netloc, path := rstripSlash p.path,
    params := p.params, query := normQuery p.query, fragment := [] }

/-- `normalize_url` from `normalize/url_normalizer.py` (lines 23-75) on
character lists: falsy input is returned as is, a parse `ValueError` is
caught and the original returned, otherwise the normalised components are
reassembled. -/
def normalizeChars (l : List Char) : List Char :=
  if l = [] then l
  else
    match pyUrlparse l with
    | .error _ => l
    | .ok p => pyUrlunparse (normParts p)

/-- `normalize_url(url)` on strings. -/
def normalize_url (s : String) : String :=
  ⟨normalizeChars s.data⟩

/-- `[p for p in path.split("/") if p]` of `normalize_ats_url`. -/
def nonEmptySegs (path : List Char) : List (List Char) :=
  (splitOnCharL '/' path).filter (fun seg => seg ≠ [])

/-- Python `s.split(sep)[0]` for a non-empty separator substring: the part
before the first occurrence (the whole string if absent). -/
def subBefore (sep : List Char) : List Char → List Char
  | [] => []
  | c :: t => if leadsWith sep (c :: t) then [] else c :: subBefore sep t

/-- `normalize_ats_url(url)` from `normalize/ats_normalizer.py`
(lines 13-100): collapse a hosted-ATS job URL to its board root, `none`
for non-ATS hosts; a parse `ValueError` propagates (no try/except in the
source). -/
def normalize_ats_url (url : String) : Except Unit (Option String) :=
  if url = "" then .ok none
  else
    match pyUrlparse url.data with
    | .error e => .error e
    | .ok parsed =>
      let netloc := parsed.netloc.map Char.toLower
      let path := parsed.path
      if pyInL "boards.greenhouse.io".data netloc then
        match nonEmptySegs path with
        | [] => .ok none
        | slug :: _ =>
          .ok (some ⟨normalizeChars ("https://boards.greenhouse.io/".data ++ slug)⟩)
      else if pyInL "jobs.lever.co".data netloc then
        match nonEmptySegs path with
        | [] => .ok none
        | slug :: _ =>
          .ok (some ⟨normalizeChars ("https://jobs.lever.co/".data ++ slug)⟩)
      else if pyInL "jobs.ashbyhq.com".data netloc then
        match nonEmptySegs path with
        | [] => .ok none
        | slug :: _ =>
          .ok (some ⟨normalizeChars ("https://jobs.ashbyhq.com/".data ++ slug)⟩)
      else if pyInL "apply.workable.com".data netloc then
        match nonEmptySegs path with
        | [] => .ok none
        | slug :: _ =>
          .ok (some ⟨normalizeChars ("https://apply.workable.com/".data ++ slug)⟩)
      else if pyInL "careers.smartrecruiters.com".data netloc then
        match nonEmptySegs path with
        | [] => .ok none
        | slug :: _ =>
          .ok (some ⟨normalizeChars ("https://careers.smartrecruiters.com/".data ++ slug)⟩)
      else if pyInL ".teamtailor.com".data netloc then
        let subdomain := subBefore ".teamtailor.com".data netloc
        .ok (some ⟨normalizeChars ("https://".data ++ subdomain ++ ".teamtailor.com/jobs".data)⟩)
      else if pyInL ".recruitee.com".data netloc then
        let subdomain := subBefore ".recruitee.com".data netloc
        .ok (some ⟨normalizeChars ("https://".data ++ subdomain ++ ".recruitee.com".data)⟩)
      else .ok none

/-! Storage layer (`storage/sqlite_store.py`). -/

/-- Lead row: `company_domain` plus the nullable columns written by
`save_or_update_lead`'s call site in the orchestrator (`score_breakdown`
is the pair of mvp/partnership breakdown dicts). -/
structure Lead where
  company_domain : String
  route_flag : Option String := none
  mvp_intent_score : Option Int := none
  partnership_fit_score : Option Int := none
  score_breakdown : Option (List (String × Int) × List (String × Int)) := none
  recommended_channel : Option String := none
  outreach_note : Option String := none
deriving DecidableEq

/-- The `**kwargs` passed to `save_or_update_lead`; a `none` value models a
Python `None` value for that key (e.g. `recommended_channel=None` for an
ignore-routed lead). -/
structure LeadKwargs where
  route_flag : Option String := none
  mvp_intent_score : Option Int := none
  partnership_fit_score : Option Int := none
  score_breakdown : Option (List (String × Int) × List (String × Int)) := none
  recommended_channel : Option String := none
  outreach_note : Option String := none
deriving DecidableEq

/-- One `setattr` step of `save_or_update_lead`'s update loop:
`if hasattr(lead, key) and value is not None: setattr(lead, key, value)` —
every kwarg key is a Lead attribute, and `None` values are skipped
(the old value is kept). -/
def orKeep {α : Type} (new old : Option α) : Option α :=
  match new with
  | some v => some v
  | none => old

/-- The update loop body of `save_or_update_lead` applied to every field. -/
def applyKwargs (lead : Lead) (kw : LeadKwargs) : Lead :=
  { lead with
    route_flag := orKeep kw.route_flag lead.route_flag
    mvp_intent_score := orKeep kw.mvp_intent_score lead.mvp_intent_score
    partnership_fit_score := orKeep kw.partnership_fit_score lead.partnership_fit_score
    score_breakdown := orKeep kw.score_breakdown lead.score_breakdown
    recommended_channel := orKeep kw.recommended_channel lead.recommended_channel
    outreach_note := orKeep kw.outreach_note lead.outreach_note }

/-- `Lead(company_domain=domain, **kwargs)`: a fresh row carrying exactly
the supplied values (including `None`s). -/
def newLead (domain : String) (kw : LeadKwargs) : Lead :=
  { company_domain := domain
    route_flag := kw.route_flag
    mvp_intent_score := kw.mvp_intent_score
    partnership_fit_score := kw.partnership_fit_score
    score_breakdown := kw.score_breakdown
    recommended_channel := kw.recommended_channel
    outreach_note := kw.outreach_note }

/-- `save_or_update_lead(domain, **kwargs)` from `storage/sqlite_store.py`
(lines 115-131): the leads table is the list of rows; the first row whose
`company_domain` matches (the `query.filter(...).first()`) is updated via
`applyKwargs`, otherwise a fresh row is added. -/
def save_or_update_lead : List Lead → String → LeadKwargs → List Lead
  | [], domain, kw => [newLead domain kw]
  | l :: rest, domain, kw =>
    if l.company_domain = domain then applyKwargs l kw :: rest
    else l :: save_or_update_lead rest domain kw

/-! CLI (`cli.py`). -/

/-- Outcome of the `run` sub-command's flag dispatch. -/
inductive RunAction
  | error_exit_1
  | run_all_action
  | run_pack_action (pack : String)
  | run_source_action (source : String)
deriving DecidableEq

/-- Python truthiness of a Click string option (`elif pack:`): absent or
empty means falsy. -/
def pyTruthy : Option String → Bool
  | none => false
  | some s => s ≠ ""

/-- Flag dispatch of the `run` sub-command in `cli.py` (lines 54-81):
`if run_all: ... elif pack: ... elif source: ... else: error; sys.exit(1)`. -/
def run_dispatch (source pack : Option String) (run_all : Bool) : RunAction :=
  if run_all then .run_all_action
  else if pyTruthy pack then .run_pack_action (pack.getD "")
  else if pyTruthy source then .run_source_action (source.getD "")
  else .error_exit_1

/-! Percent-encoding round trip. -/

/-- The `%XX` escape blocks of a byte string. -/
def pctBlockBytes (bs : List Nat) : List Char :=
  (bs.map (fun b => ['%', hexUpper (b / 16), hexUpper (b % 16)])).flatten

/-- Canonical per-character form of `quote(s, safe)`. -/
def encQsafe (safe : List Char) (c : Char) : List Char :=
  if alwaysSafeByte c.toNat || c ∈ safe then [c] else pctBlockBytes (utf8EncodeChar c)

/-- Canonical per-character form of `quote_plus` followed by the
`replace('+', ' ')` of `parse_qsl`. -/
def encRP (c : Char) : List Char :=
  if c = ' ' then [' ']
  else if alwaysSafeByte c.toNat then [c]
  else pctBlockBytes (utf8EncodeChar c)

/-! Query string round trip (`parse_qs` after `urlencode`). -/

/-- Character class of `quote_plus` output. -/
def encodedOK (c : Char) : Bool :=
  alwaysSafeByte c.toNat || c = '%' || c = '+'

/-- Character class of `urlencode` output. -/
def qencChar (c : Char) : Bool :=
  encodedOK c || c = '=' || c = '&'

/-- The `k=v` part strings of `urlencode(d, doseq=True)`. -/
def pairParts (d : List (List Char × List (List Char))) : List (List Char) :=
  (d.map (fun kv => kv.2.map (fun v => pyQuotePlus kv.1 ++ '=' :: pyQuotePlus v))).flatten

/-- The key/value pairs listed by `urlencode` order. -/
def flattenKV (d : List (List Char × List (List Char))) : List (List Char × List Char) :=
  (d.map (fun kv => kv.2.map (fun v => (kv.1, v)))).flatten

/-- Canonical shape of a `parse_qs` result: distinct keys, non-empty value
lists. -/
def qsCanon (d : List (List Char × List (List Char))) : Prop :=
  d.Pairwise (fun a b => a.1 ≠ b.1) ∧ ∀ kv ∈ d, kv.2 ≠ []

/-- A whole-word match needs a word character: a positive count means the
text contains a word character, or the scanner was entered just after one. -/
theorem countOcc_exists_word (kw : List Char) (l : List Char) :
    ∀ (skip : Nat) (prev : Option Char),
    0 < countOcc kw skip prev l →
    (∃ c ∈ l, isWordChar c = true) ∨ optWord prev = true := by
  induction l with
  | nil =>
    intro skip prev hpos
    rw [countOcc] at hpos
    by_cases hb : (kw.isEmpty && wordBoundary prev none) = true
    · refine Or.inr ?_
      have h2 := ((Bool.and_eq_true _ _).mp hb).2
      rw [wordBoundary] at h2
      cases hop : optWord prev with
      | true => rfl
      | false => rw [hop] at h2; simp [optWord] at h2
    · rw [if_neg hb] at hpos
      omega
  | cons c t ih =>
    intro skip prev hpos
    cases hwc : isWordChar c with
    | true => exact Or.inl ⟨c, by simp, hwc⟩
    | false =>
      have lift : 0 < countOcc kw 0 (some c) t →
          (∃ d ∈ c :: t, isWordChar d = true) ∨ optWord prev = true := by
        intro h
        rcases ih 0 (some c) h with ⟨d, hd, hdw⟩ | hw
        · exact Or.inl ⟨d, by simp [hd], hdw⟩
        · simp [optWord, hwc] at hw
      cases skip with
      | succ n =>
        rw [countOcc] at hpos
        rcases ih n (some c) hpos with ⟨d, hd, hdw⟩ | hw
        · exact Or.inl ⟨d, by simp [hd], hdw⟩
        · simp [optWord, hwc] at hw
      | zero =>
        have hb : wordBoundary prev (some c) = true → optWord prev = true := by
          intro h
          rw [wordBoundary] at h
          have hoc : optWord (some c) = false := by simp [optWord, hwc]
          rw [hoc] at h
          cases hop : optWord prev with
          | true => rfl
          | false => rw [hop] at h; simp at h
        cases kw with
        | nil =>
          rw [countOcc] at hpos
          simp only [List.isEmpty_nil, if_true] at hpos
          by_cases hbb : wordBoundary prev (some c) = true
          · exact Or.inr (hb hbb)
          · rw [if_neg hbb] at hpos
            simp at hpos
            exact lift hpos
        | cons k ks =>
          rw [countOcc] at hpos
          simp only [List.isEmpty_cons, if_false] at hpos
          by_cases hm : (leadsWith (k :: ks) (c :: t) && wordBoundary prev (some c)
              && wordBoundary (k :: ks).getLast? (((c :: t).drop (k :: ks).length).head?)) = true
          · have hbb := ((Bool.and_eq_true _ _).mp ((Bool.and_eq_true _ _).mp hm).1).2
            exact Or.inr (hb hbb)
          · rw [if_neg hm] at hpos
            exact lift hpos

/-- A positive left fold of added counts means some keyword contributed. -/
theorem foldl_count_pos (f : String → Nat) : ∀ (l : List String) (a : Nat),
    0 < l.foldl (fun acc kw => acc + f kw) a → 0 < a ∨ ∃ kw ∈ l, 0 < f kw := by
  intro l
  induction l with
  | nil => intro a h; exact Or.inl (by simpa using h)
  | cons x xs ih =>
    intro a h
    rcases ih (a + f x) h with h' | ⟨kw, hkw, hf⟩
    · rcases Nat.lt_or_ge 0 (f x) with hx | hx
      · exact Or.inr ⟨x, by simp, hx⟩
      · exact Or.inl (by omega)
    · exact Or.inr ⟨kw, by simp [hkw], hf⟩

/-- Whitespace characters are unchanged by `Char.toLower`. -/
theorem toLower_of_space (c : Char) (h : c.toNat ≤ 32) : Char.toLower c = c := by
  unfold Char.toLower
  rw [if_neg]
  omega

/-- A positive keyword count implies the text is not blank (the early
`not all_text.strip()` return of `classify_domain` cannot have fired). -/
theorem count_pos_not_blank (text : String) (keywords : List String)
    (h : 0 < count_keywords text keywords) : pyIsBlank text = false := by
  unfold count_keywords at h
  rcases foldl_count_pos _ keywords 0 h with h0 | ⟨kw, _, hpos⟩
  · omega
  · obtain ⟨w, hw, hww⟩ :=
      (countOcc_exists_word (pyLower kw).data (pyLower text).data 0 none hpos).resolve_right
        (by simp [optWord])
    unfold pyLower at hw
    simp only at hw
    obtain ⟨c, hc, hlc⟩ := List.mem_map.mp hw
    have hcs : isPySpace c = false := by
      cases hsp : isPySpace c with
      | false => rfl
      | true =>
        exfalso
        have hle : c.toNat ≤ 32 := by
          simp [isPySpace] at hsp
          omega
        rw [toLower_of_space c hle] at hlc
        subst hlc
        simp [isWordChar] at hww
        omega
    rw [pyIsBlank, List.all_eq_false]
    exact ⟨c, hc, by simp [hcs]⟩

/-- Splitting a weighted count `2*a + b = n > 0` into a positive part. -/
theorem weighted_pos {a b : Nat} {n : Int} (h : (a : Int) * 2 + (b : Int) = n)
    (hn : 0 < n) : 0 < a ∨ 0 < b := by omega

/-- C4 (amended): classifier rule ordering and tie fallback.  (a) Whenever
the weighted staffing count is 3 (at or above the default threshold 2) the
result is Staffing/Recruiter regardless of a product count of 10.
(b) With zero product and services counts, staffing count below the
threshold, non-blank extracted text, and a pricing page among the input
page labels, the result is Product Company, whose fallback confidence 0.6
is dampened by the low-total-keyword rule (total < 3) to a returned
confidence of 0.42. -/
theorem classifier_rule_ordering :
    (∀ (domain : String) (pages : List (String × String)) (kc : KeywordsConfig),
        staffing_count_of pages kc = 3 →
        product_count_of pages kc = 10 →
        (classify_domain domain pages kc {}).business_type = "staffing_recruiter")
    ∧ (∀ (domain : String) (pages : List (String × String)) (kc : KeywordsConfig),
        services_count_of pages kc = 0 →
        product_count_of pages kc = 0 →
        staffing_count_of pages kc < 2 →
        pyIsBlank (page_text pages) = false →
        (pages.map (fun page => page.1)).any (fun path => pyInS "/pricing" path) = true →
        (classify_domain domain pages kc {}).business_type = "product_company"
        ∧ (classify_domain domain pages kc {}).confidence = 21/50) := by
  constructor
  · intro domain pages kc hst hpr
    have hpos : 0 < count_keywords (page_text pages) kc.staffing_indicators.strong
        ∨ 0 < count_keywords (page_text pages) kc.staffing_indicators.moderate := by
      unfold staffing_count_of at hst
      omega
    have hblank : pyIsBlank (page_text pages) = false := by
      rcases hpos with h | h
      · exact count_pos_not_blank _ _ h
      · exact count_pos_not_blank _ _ h
    simp [classify_domain, hblank, hst, hpr, BusinessType.value]
  · intro domain pages kc hsv hpd hstf hblank hpricing
    have h1 : ¬ (2 ≤ staffing_count_of pages kc) := by omega
    have h3 : staffing_count_of pages kc < 3 := by omega
    constructor <;>
      simp [classify_domain, hblank, hsv, hpd, h1, h3, hpricing, BusinessType.value] <;>
      norm_num [pyRound2]

/-- C4 counterexample: with zero product/services/staffing counts and a
pricing page, `classify_domain` does return Product Company, but at the
dampened confidence 0.42 (= 0.6 * 0.7, total weighted keyword count < 3),
not at confidence 0.6 as claimed. -/
theorem classifier_fallback_confidence_counterexample :
    (classify_domain "acme.com" [("/pricing", "hello")] {} {}).business_type = "product_company"
    ∧ (classify_domain "acme.com" [("/pricing", "hello")] {} {}).confidence ≠ 3/5
    ∧ (classify_domain "acme.com" [("/pricing", "hello")] {} {}).confidence = 21/50 := by
  have hconf : (classify_domain "acme.com" [("/pricing", "hello")] {} {}).confidence
      = pyRound2 ((3/5) * (7/10)) := rfl
  refine ⟨by decide, ?_, ?_⟩
  · rw [hconf]; norm_num [pyRound2]
  · rw [hconf]; norm_num [pyRound2]

/-- C4 witness: both amended rows instantiated at concrete pages and
keyword configs (staffing count 3 via three whole-word `recruit` hits,
product count 10 via five doubled `saas` hits). -/
theorem classifier_rule_ordering_witness :
    (classify_domain "x.com"
        [("/", "recruit recruit recruit saas saas saas saas saas")]
        { staffing_indicators := { moderate := ["recruit"] },
          product_indicators := { strong_product := ["saas"] } } {}).business_type
      = "staffing_recruiter"
    ∧ (classify_domain "acme.com" [("/pricing", "hello")] {} {}).business_type
        = "product_company"
    ∧ (classify_domain "acme.com" [("/pricing", "hello")] {} {}).confidence = 21/50 :=
  ⟨classifier_rule_ordering.1 "x.com" _ _ (by decide) (by decide),
   (classifier_rule_ordering.2 "acme.com" [("/pricing", "hello")] {}
      (by decide) (by decide) (by decide) (by decide) (by decide)).1,
   (classifier_rule_ordering.2 "acme.com" [("/pricing", "hello")] {}
      (by decide) (by decide) (by decide) (by decide) (by decide)).2⟩

/-- C8 counterexample: updating an existing lead with
`recommended_channel=None` (as supplied for an ignore-routed lead) does
not overwrite the stored channel — the `value is not None` guard skips it —
so the updated row keeps `linkedin_dm` instead of the newly supplied
`None`. -/
theorem save_or_update_lead_none_counterexample :
    save_or_update_lead
        [{ company_domain := "acme.com", route_flag := some "outreach_mvp_client",
           recommended_channel := some "linkedin_dm" }] "acme.com"
        { route_flag := some "ignore", mvp_intent_score := some 0,
          partnership_fit_score := some 0, score_breakdown := some ([], []),
          recommended_channel := none, outreach_note := none }
      = [{ company_domain := "acme.com", route_flag := some "ignore",
           mvp_intent_score := some 0, partnership_fit_score := some 0,
           score_breakdown := some ([], []),
           recommended_channel := some "linkedin_dm", outreach_note := none }]
    ∧ save_or_update_lead
        [{ company_domain := "acme.com", route_flag := some "outreach_mvp_client",
           recommended_channel := some "linkedin_dm" }] "acme.com"
        { route_flag := some "ignore", mvp_intent_score := some 0,
          partnership_fit_score := some 0, score_breakdown := some ([], []),
          recommended_channel := none, outreach_note := none }
      ≠ [{ company_domain := "acme.com", route_flag := some "ignore",
           mvp_intent_score := some 0, partnership_fit_score := some 0,
           score_breakdown := some ([], []),
           recommended_channel := none, outreach_note := none }] := by
  refine ⟨by decide, by decide⟩

/-- C8 (amended): lead upsert semantics.  For a domain with no existing
row, `save_or_update_lead` appends a fresh row; for a domain with an
existing row it updates that row in place (no second row), overwriting
exactly the fields whose newly supplied value is not `None` and leaving
`None`-valued fields unchanged. -/
theorem save_or_update_lead_semantics :
    (∀ (db : List Lead) (domain : String) (kw : LeadKwargs),
        (∀ l ∈ db, l.company_domain ≠ domain) →
        save_or_update_lead db domain kw = db ++ [newLead domain kw])
    ∧ (∀ (pre post : List Lead) (l : Lead) (kw : LeadKwargs),
        (∀ p ∈ pre, p.company_domain ≠ l.company_domain) →
        save_or_update_lead (pre ++ l :: post) l.company_domain kw
          = pre ++ applyKwargs l kw :: post)
    ∧ (∀ (l : Lead) (kw : LeadKwargs),
        (applyKwargs l kw).company_domain = l.company_domain
        ∧ (kw.route_flag ≠ none → (applyKwargs l kw).route_flag = kw.route_flag)
        ∧ (kw.route_flag = none → (applyKwargs l kw).route_flag = l.route_flag)
        ∧ (kw.mvp_intent_score ≠ none →
            (applyKwargs l kw).mvp_intent_score = kw.mvp_intent_score)
        ∧ (kw.mvp_intent_score = none →
            (applyKwargs l kw).mvp_intent_score = l.mvp_intent_score)
        ∧ (kw.partnership_fit_score ≠ none →
            (applyKwargs l kw).partnership_fit_score = kw.partnership_fit_score)
        ∧ (kw.partnership_fit_score = none →
            (applyKwargs l kw).partnership_fit_score = l.partnership_fit_score)
        ∧ (kw.score_breakdown ≠ none →
            (applyKwargs l kw).score_breakdown = kw.score_breakdown)
        ∧ (kw.score_breakdown = none →
            (applyKwargs l kw).score_breakdown = l.score_breakdown)
        ∧ (kw.recommended_channel ≠ none →
            (applyKwargs l kw).recommended_channel = kw.recommended_channel)
        ∧ (kw.recommended_channel = none →
            (applyKwargs l kw).recommended_channel = l.recommended_channel)
        ∧ (kw.outreach_note ≠ none → (applyKwargs l kw).outreach_note = kw.outreach_note)
        ∧ (kw.outreach_note = none → (applyKwargs l kw).outreach_note = l.outreach_note)) := by
  refine ⟨?_, ?_, ?_⟩
  · intro db domain kw hmiss
    induction db with
    | nil => rfl
    | cons l rest ih =>
      rw [save_or_update_lead, if_neg (hmiss l (by simp))]
      rw [ih (fun p hp => hmiss p (by simp [hp]))]
      simp
  · intro pre post l kw hmiss
    induction pre with
    | nil => simp [save_or_update_lead]
    | cons p rest ih =>
      simp only [List.cons_append, List.append_eq, save_or_update_lead,
        if_neg (hmiss p (by simp))]
      rw [ih (fun q hq => hmiss q (by simp [hq]))]
  · intro l kw
    refine ⟨rfl, fun h => ?_, fun h => ?_, fun h => ?_, fun h => ?_, fun h => ?_, fun h => ?_,
      fun h => ?_, fun h => ?_, fun h => ?_, fun h => ?_, fun h => ?_, fun h => ?_⟩
    · cases hv : kw.route_flag <;> simp_all [applyKwargs, orKeep]
    · cases hv : kw.route_flag <;> simp_all [applyKwargs, orKeep]
    · cases hv : kw.mvp_intent_score <;> simp_all [applyKwargs, orKeep]
    · cases hv : kw.mvp_intent_score <;> simp_all [applyKwargs, orKeep]
    · cases hv : kw.partnership_fit_score <;> simp_all [applyKwargs, orKeep]
    · cases hv : kw.partnership_fit_score <;> simp_all [applyKwargs, orKeep]
    · cases hv : kw.score_breakdown <;> simp_all [applyKwargs, orKeep]
    · cases hv : kw.score_breakdown <;> simp_all [applyKwargs, orKeep]
    · cases hv : kw.recommended_channel <;> simp_all [applyKwargs, orKeep]
    · cases hv : kw.recommended_channel <;> simp_all [applyKwargs, orKeep]
    · cases hv : kw.outreach_note <;> simp_all [applyKwargs, orKeep]
    · cases hv : kw.outreach_note <;> simp_all [applyKwargs, orKeep]

/-- C8 witness: create-then-update at concrete values. -/
theorem save_or_update_lead_semantics_witness :
    save_or_update_lead [] "acme.com" { route_flag := some "outreach_mvp_client" }
      = [newLead "acme.com" { route_flag := some "outreach_mvp_client" }]
    ∧ save_or_update_lead
        [{ company_domain := "acme.com", route_flag := some "outreach_mvp_client" }]
        "acme.com" { mvp_intent_score := some 35 }
      = [applyKwargs { company_domain := "acme.com", route_flag := some "outreach_mvp_client" }
          { mvp_intent_score := some 35 }]
    ∧ (applyKwargs { company_domain := "acme.com", route_flag := some "outreach_mvp_client" }
        { mvp_intent_score := some 35 }).route_flag = some "outreach_mvp_client" :=
  ⟨save_or_update_lead_semantics.1 [] "acme.com" _ (by intro l hl; cases hl),
   save_or_update_lead_semantics.2.1 [] []
     { company_domain := "acme.com", route_flag := some "outreach_mvp_client" }
     { mvp_intent_score := some 35 } (by intro p hp; cases hp),
   (save_or_update_lead_semantics.2.2
     { company_domain := "acme.com", route_flag := some "outreach_mvp_client" }
     { mvp_intent_score := some 35 }).2.2.1 rfl⟩

/-- C9 counterexample: invoking `run` with two of the three flags does not
error — `--all` together with `--pack` dispatches to `run_all` (precedence
`--all` over `--pack` over `--source`) instead of exiting with status 1. -/
theorem run_dispatch_two_flags_counterexample :
    run_dispatch none (some "test_hiring_v1") true = RunAction.run_all_action
    ∧ run_dispatch none (some "test_hiring_v1") true ≠ RunAction.error_exit_1
    ∧ run_dispatch (some "hiring") (some "test_hiring_v1") false
        = RunAction.run_pack_action "test_hiring_v1"
    ∧ run_dispatch (some "hiring") (some "test_hiring_v1") false ≠ RunAction.error_exit_1 := by
  refine ⟨by decide, by decide, by decide, by decide⟩

/-- C9 (amended): the `run` sub-command errors with exit status 1 exactly
when none of `--source`, `--pack`, `--all` is (truthily) given; when more
than one is given it does not error but dispatches with precedence
`--all` > `--pack` > `--source`. -/
theorem run_flag_validation :
    (∀ (source pack : Option String) (run_all : Bool),
        run_dispatch source pack run_all = RunAction.error_exit_1
          ↔ run_all = false ∧ pyTruthy pack = false ∧ pyTruthy source = false)
    ∧ (∀ (source pack : Option String),
        run_dispatch source pack true = RunAction.run_all_action)
    ∧ (∀ (source pack : Option String),
        pyTruthy pack = true →
        run_dispatch source pack false = RunAction.run_pack_action (pack.getD ""))
    ∧ (∀ (source pack : Option String),
        pyTruthy pack = false → pyTruthy source = true →
        run_dispatch source pack false = RunAction.run_source_action (source.getD "")) := by
  refine ⟨?_, ?_, ?_, ?_⟩
  · intro source pack run_all
    unfold run_dispatch
    split_ifs <;> simp_all
  · intro source pack
    rfl
  · intro source pack h
    simp [run_dispatch, h]
  · intro source pack h1 h2
    simp [run_dispatch, h1, h2]

/-- C9 witness: no flags errors with status 1; a lone `--pack` runs the
pack. -/
theorem run_flag_validation_witness :
    run_dispatch none none false = RunAction.error_exit_1
    ∧ run_dispatch none (some "test_hiring_v1") false
        = RunAction.run_pack_action "test_hiring_v1" :=
  ⟨(run_flag_validation.1 none none false).mpr ⟨rfl, rfl, rfl⟩,
   run_flag_validation.2.2.1 none (some "test_hiring_v1") (by decide)⟩

/-- C1: MVP scoring arithmetic.  A snapshot with `ats_board_found` and 4
engineering roles scores 35 with breakdown
`{ats_board_found: 20, engineering_roles_3_5: 15}` under default weights and
a non-penalised business type; with business type Service Agency the -25
penalty yields `max(0, 35-25) = 10`; and for all inputs the returned
`mvp_intent_score` is clamped to `[0, 100]`. -/
theorem mvp_scoring_arithmetic :
    (score_lead { signals := ["ats_board_found"], engineering_roles_count := 4 }
        ⟨"product_company"⟩ {} {}).mvp_intent_score = 35
    ∧ (score_lead { signals := ["ats_board_found"], engineering_roles_count := 4 }
        ⟨"product_company"⟩ {} {}).mvp_breakdown
        = [("ats_board_found", 20), ("engineering_roles_3_5", 15)]
    ∧ (score_lead { signals := ["ats_board_found"], engineering_roles_count := 4 }
        ⟨"service_agency"⟩ {} {}).mvp_intent_score = 10
    ∧ ∀ (sn : Snapshot) (cl : Classification) (sc : ScoringConfig) (kc : KeywordsConfig),
        0 ≤ (score_lead sn cl sc kc).mvp_intent_score
        ∧ (score_lead sn cl sc kc).mvp_intent_score ≤ 100 := by
  refine ⟨by decide, by decide, by decide, fun sn cl sc kc => ?_⟩
  constructor
  · exact le_max_left _ _
  · exact max_le (by norm_num) (min_le_left _ _)

/-- C3: partnership score gating.  For any business type other than
Service Agency, Consultancy, or System Integrator, `score_lead` returns
`partnership_fit_score = 0` and an empty partnership breakdown, regardless
of signals and configuration. -/
theorem partnership_gating (sn : Snapshot) (cl : Classification)
    (sc : ScoringConfig) (kc : KeywordsConfig)
    (h1 : cl.business_type ≠ "service_agency")
    (h2 : cl.business_type ≠ "consultancy")
    (h3 : cl.business_type ≠ "system_integrator") :
    (score_lead sn cl sc kc).partnership_fit_score = 0
    ∧ (score_lead sn cl sc kc).partnership_breakdown = [] := by
  constructor <;>
    simp [score_lead, BusinessType.value, List.contains, List.elem_eq_mem, h1, h2, h3]

/-- C3 witness: instantiated at business type Product Company with a
signal-rich snapshot. -/
theorem partnership_gating_witness :
    (score_lead { signals := ["ats_board_found", "hiring_ai"], engineering_roles_count := 4 }
        ⟨"product_company"⟩ {} {}).partnership_fit_score = 0
    ∧ (score_lead { signals := ["ats_board_found", "hiring_ai"], engineering_roles_count := 4 }
        ⟨"product_company"⟩ {} {}).partnership_breakdown = [] :=
  partnership_gating _ _ _ _ (by decide) (by decide) (by decide)

/-- C2: routing decision table.  (a) Product Company with a
`recent_launch_0_30d` signal routes to outreach-as-MVP-client on X/Twitter
DM; (b) Staffing/Recruiter routes to ignore regardless of scores;
(c) Unknown with `engineering_roles_count = 4` (at or above the default
threshold 3) routes to outreach-as-MVP-client on LinkedIn DM. -/
theorem routing_decision_table :
    (∀ (cl : Classification) (scores : ScoreResult) (sn : Snapshot),
        cl.business_type = "product_company" →
        sn.signals.contains "recent_launch_0_30d" = true →
        route_lead cl scores sn {} = ("outreach_mvp_client", some "x_dm"))
    ∧ (∀ (cl : Classification) (scores : ScoreResult) (sn : Snapshot),
        cl.business_type = "staffing_recruiter" →
        route_lead cl scores sn {} = ("ignore", none))
    ∧ (∀ (cl : Classification) (scores : ScoreResult) (sn : Snapshot),
        cl.business_type = "unknown" →
        sn.engineering_roles_count = 4 →
        route_lead cl scores sn {} = ("outreach_mvp_client", some "linkedin_dm")) := by
  refine ⟨fun cl scores sn h1 h2 => ?_, fun cl scores sn h1 => ?_, fun cl scores sn h1 h2 => ?_⟩
  · have h2' : "recent_launch_0_30d" ∈ sn.signals := by
      simpa [List.contains, List.elem_eq_mem] using h2
    simp [route_lead, h1, h2', BusinessType.value, RouteFlag.value, RecommendedChannel.value]
  · simp [route_lead, h1, BusinessType.value, RouteFlag.value, List.contains, List.elem_eq_mem]
  · simp [route_lead, h1, h2, BusinessType.value, RouteFlag.value, RecommendedChannel.value,
      List.contains, List.elem_eq_mem, RoutingConfig.strong_hiring_threshold]

/-- C2 witness: the three routing rows instantiated at concrete inputs. -/
theorem routing_decision_table_witness :
    route_lead ⟨"product_company"⟩ ⟨0, 0, [], []⟩
        { signals := ["recent_launch_0_30d"] } {} = ("outreach_mvp_client", some "x_dm")
    ∧ route_lead ⟨"staffing_recruiter"⟩ ⟨88, 90, [], []⟩ {} {} = ("ignore", none)
    ∧ route_lead ⟨"unknown"⟩ ⟨0, 0, [], []⟩
        { engineering_roles_count := 4 } {} = ("outreach_mvp_client", some "linkedin_dm") :=
  ⟨routing_decision_table.1 _ _ _ rfl (by decide),
   routing_decision_table.2.1 _ _ _ rfl,
   routing_decision_table.2.2 _ _ _ rfl rfl⟩

/-- C10: router channel/route invariant.  For every input, `route_lead`
returns an absent recommended channel if and only if the returned route
flag is `ignore` (including business types outside the four handled cases,
which fall through to the initial `IGNORE`/`None` values). -/
theorem route_channel_invariant (cl : Classification) (scores : ScoreResult)
    (sn : Snapshot) (rc : RoutingConfig) :
    (route_lead cl scores sn rc).2 = none ↔ (route_lead cl scores sn rc).1 = "ignore" := by
  simp only [route_lead]
  split_ifs <;>
    simp [RouteFlag.value, RecommendedChannel.value]

/-! Supporting lemmas about the list and character helpers. -/

theorem breakAtFirst_eq_none {ch : Char} {l : List Char} :
    breakAtFirst ch l = none ↔ ch ∉ l := by
  induction l with
  | nil => simp [breakAtFirst]
  | cons c t ih =>
    by_cases hc : c = ch
    · subst hc
      simp [breakAtFirst]
    · rw [breakAtFirst, if_neg hc]
      cases hb : breakAtFirst ch t with
      | none => simpa [hb, Ne.symm hc, eq_comm] using ih.mp hb
      | some p =>
        simp only [hb]
        constructor
        · intro h; cases h
        · intro h
          exfalso
          have := ih.mpr (by intro hm; exact h (List.mem_cons_of_mem _ hm))
          rw [this] at hb
          cases hb

theorem breakAtFirst_eq_some {ch : Char} {l a b : List Char}
    (h : breakAtFirst ch l = some (a, b)) : l = a ++ ch :: b ∧ ch ∉ a := by
  induction l generalizing a with
  | nil => cases h
  | cons c t ih =>
    by_cases hc : c = ch
    · subst hc
      rw [breakAtFirst, if_pos rfl] at h
      cases h
      simp
    · rw [breakAtFirst, if_neg hc] at h
      cases hb : breakAtFirst ch t with
      | none => rw [hb] at h; cases h
      | some p =>
        rw [hb] at h
        cases h
        obtain ⟨h1, h2⟩ := ih hb
        constructor
        · simp [h1]
        · intro hm
          rcases List.mem_cons.mp hm with h' | h'
          · exact hc h'.symm
          · exact h2 h'

theorem breakAtFirst_append_notMem {ch : Char} {a : List Char} (b : List Char)
    (h : ch ∉ a) : breakAtFirst ch (a ++ ch :: b) = some (a, b) := by
  induction a with
  | nil => simp [breakAtFirst]
  | cons c t ih =>
    have hc : c ≠ ch := fun hcc => h (by simp [hcc])
    rw [List.cons_append, breakAtFirst, if_neg hc,
      ih (fun hm => h (List.mem_cons_of_mem _ hm))]

theorem breakAtFirst_append_left {ch : Char} {l a b : List Char} (r : List Char)
    (h : breakAtFirst ch l = some (a, b)) :
    breakAtFirst ch (l ++ r) = some (a, b ++ r) := by
  obtain ⟨h1, h2⟩ := breakAtFirst_eq_some h
  subst h1
  rw [List.append_assoc, List.cons_append]
  exact breakAtFirst_append_notMem _ h2

theorem breakAtFirst_append_none {ch : Char} {l : List Char} (r : List Char)
    (h : breakAtFirst ch l = none) :
    breakAtFirst ch (l ++ r) = (breakAtFirst ch r).map (fun p => (l ++ p.1, p.2)) := by
  have hnm := breakAtFirst_eq_none.mp h
  induction l with
  | nil => cases hb : breakAtFirst ch r <;> simp [hb]
  | cons c t ih =>
    have hc : c ≠ ch := fun hcc => hnm (by simp [hcc])
    rw [List.cons_append, breakAtFirst, if_neg hc,
      ih (breakAtFirst_eq_none.mpr (fun hm => hnm (List.mem_cons_of_mem _ hm)))
        (fun hm => hnm (List.mem_cons_of_mem _ hm))]
    cases hb : breakAtFirst ch r <;> simp

theorem takeWhile_append_all {p : Char → Bool} {a b : List Char}
    (ha : ∀ c ∈ a, p c = true) (hb : ∀ c, b.head? = some c → p c = false) :
    (a ++ b).takeWhile p = a ∧ (a ++ b).dropWhile p = b := by
  induction a with
  | nil =>
    cases b with
    | nil => simp
    | cons c t =>
      have := hb c rfl
      simp [List.takeWhile, List.dropWhile, this]
  | cons c t ih =>
    have hc := ha c (by simp)
    have ihr := ih (fun d hd => ha d (by simp [hd]))
    simp [List.takeWhile, List.dropWhile, hc, ihr.1, ihr.2]

theorem dropWhile_head_false {p : Char → Bool} {l : List Char} {c : Char}
    (h : (l.dropWhile p).head? = some c) : p c = false := by
  induction l with
  | nil => cases h
  | cons d t ih =>
    rw [List.dropWhile] at h
    cases hp : p d with
    | true => rw [hp] at h; exact ih h
    | false =>
      rw [hp] at h
      simp at h
      rw [← h]
      exact hp

theorem dropWhile_idem {p : Char → Bool} (l : List Char) :
    (l.dropWhile p).dropWhile p = l.dropWhile p := by
  cases hd : l.dropWhile p with
  | nil => rfl
  | cons c t =>
    have : p c = false := dropWhile_head_false (by rw [hd]; rfl)
    simp [List.dropWhile, this]

theorem rstripSlash_idem (l : List Char) : rstripSlash (rstripSlash l) = rstripSlash l := by
  unfold rstripSlash
  rw [List.reverse_reverse, dropWhile_idem]

theorem rstripSlash_decomp (l : List Char) :
    l = rstripSlash l ++ (l.reverse.takeWhile (fun c => c = '/')).reverse
    ∧ ∀ c ∈ (l.reverse.takeWhile (fun c => c = '/')).reverse, c = '/' := by
  constructor
  · have h : List.takeWhile (fun c => c = '/') l.reverse
        ++ List.dropWhile (fun c => c = '/') l.reverse = l.reverse :=
      List.takeWhile_append_dropWhile _ _
    calc l = l.reverse.reverse := (l.reverse_reverse).symm
    _ = (List.takeWhile (fun c => c = '/') l.reverse
          ++ List.dropWhile (fun c => c = '/') l.reverse).reverse := by rw [h]
    _ = rstripSlash l ++ (l.reverse.takeWhile (fun c => c = '/')).reverse := by
          rw [List.reverse_append]; rfl
  · intro c hc
    rw [List.mem_reverse] at hc
    have := List.mem_takeWhile_imp hc
    simpa using this

theorem rstripSlash_getLast {l : List Char} {c : Char}
    (h : (rstripSlash l).getLast? = some c) : c ≠ '/' := by
  unfold rstripSlash at h
  rw [List.getLast?_reverse] at h
  intro hc
  subst hc
  have := dropWhile_head_false h
  simp at this

theorem rstripSlash_subset {l : List Char} {c : Char} (h : c ∈ rstripSlash l) : c ∈ l := by
  unfold rstripSlash at h
  rw [List.mem_reverse] at h
  have := (List.dropWhile_sublist _).subset h
  simpa using this

theorem rstripSlash_head {l : List Char} (h : rstripSlash l ≠ []) :
    (rstripSlash l).head? = l.head? := by
  obtain ⟨hdec, _⟩ := rstripSlash_decomp l
  conv_rhs => rw [hdec]
  cases hr : rstripSlash l with
  | nil => exact absurd hr h
  | cons c t => simp

theorem toNat_toLower (c : Char) :
    (Char.toLower c).toNat = if 65 ≤ c.toNat ∧ c.toNat ≤ 90 then c.toNat + 32 else c.toNat := by
  unfold Char.toLower
  by_cases h : 65 ≤ c.toNat ∧ c.toNat ≤ 90
  · rw [if_pos (by omega), if_pos h]
    show (Char.ofNat (c.toNat + 32)).toNat = c.toNat + 32
    unfold Char.ofNat
    rw [dif_pos (by left; omega)]
    rfl
  · rw [if_neg (by omega), if_neg h]

theorem char_eq_of_toNat {a b : Char} (h : a.toNat = b.toNat) : a = b := by
  cases a with
  | mk va ha =>
    cases b with
    | mk vb hb =>
      have : va = vb := by
        have hv : va.toNat = vb.toNat := h
        exact UInt32.toNat.inj hv
      subst this
      rfl

theorem toLower_toLower (c : Char) : Char.toLower (Char.toLower c) = Char.toLower c := by
  apply char_eq_of_toNat
  rw [toNat_toLower (Char.toLower c), toNat_toLower c]
  by_cases h : 65 ≤ c.toNat ∧ c.toNat ≤ 90
  · rw [if_pos h, if_neg (by omega)]
  · rw [if_neg h, if_neg h]

theorem map_toLower_idem (l : List Char) :
    (l.map Char.toLower).map Char.toLower = l.map Char.toLower := by
  rw [List.map_map]
  exact List.map_congr_left (fun c _ => toLower_toLower c)

theorem toLower_fix_of_not_upper {c : Char} (h : ¬(65 ≤ c.toNat ∧ c.toNat ≤ 90)) :
    Char.toLower c = c := by
  apply char_eq_of_toNat
  rw [toNat_toLower, if_neg h]

theorem mem_map_toLower_iff {d : Char} (h1 : ¬(97 ≤ d.toNat ∧ d.toNat ≤ 122))
    (h2 : ¬(65 ≤ d.toNat ∧ d.toNat ≤ 90)) (l : List Char) :
    d ∈ l.map Char.toLower ↔ d ∈ l := by
  constructor
  · intro hm
    obtain ⟨c, hc, hlc⟩ := List.mem_map.mp hm
    have := toNat_toLower c
    rw [hlc] at this
    by_cases hu : 65 ≤ c.toNat ∧ c.toNat ≤ 90
    · rw [if_pos hu] at this
      omega
    · rw [if_neg hu] at this
      rw [char_eq_of_toNat this]
      exact hc
  · intro hm
    have : Char.toLower d = d := toLower_fix_of_not_upper h2
    exact List.mem_map.mpr ⟨d, hm, this⟩

/-! UTF-8 round trip. -/

theorem char_toNat_valid (c : Char) :
    c.toNat < 0xD800 ∨ (0xE000 ≤ c.toNat ∧ c.toNat < 0x110000) := by
  have h := c.valid
  unfold UInt32.isValidChar Nat.isValidChar at h
  exact h

theorem utf8EncodeChar_lt (c : Char) : ∀ b ∈ utf8EncodeChar c, b < 256 := by
  have hval := char_toNat_valid c
  intro b hb
  unfold utf8EncodeChar at hb
  by_cases h1 : c.toNat < 0x80
  · rw [if_pos h1] at hb
    simp at hb
    omega
  · rw [if_neg h1] at hb
    by_cases h2 : c.toNat < 0x800
    · rw [if_pos h2] at hb
      simp at hb
      rcases hb with hb | hb <;> omega
    · rw [if_neg h2] at hb
      by_cases h3 : c.toNat < 0x10000
      · rw [if_pos h3] at hb
        simp at hb
        rcases hb with hb | hb | hb <;> omega
      · rw [if_neg h3] at hb
        simp at hb
        rcases hb with hb | hb | hb | hb <;> omega

theorem utf8_decode_encode (c : Char) (bs : List Nat) :
    utf8DecodeReplace (utf8EncodeChar c ++ bs) = c :: utf8DecodeReplace bs := by
  have hval := char_toNat_valid c
  unfold utf8EncodeChar
  by_cases h1 : c.toNat < 0x80
  · rw [if_pos h1]
    show utf8DecodeReplace (c.toNat :: bs) = _
    rw [utf8DecodeReplace.eq_def]
    simp only []
    rw [if_pos h1, Char.ofNat_toNat]
  · rw [if_neg h1]
    by_cases h2 : c.toNat < 0x800
    · rw [if_pos h2]
      show utf8DecodeReplace ((0xC0 + c.toNat / 64) :: (0x80 + c.toNat % 64) :: bs) = _
      rw [utf8DecodeReplace.eq_def]
      simp only []
      rw [if_neg (by omega), if_pos (by constructor <;> omega)]
      rw [if_pos (by simp [isCont]; omega)]
      have hn : (0xC0 + c.toNat / 64 - 0xC0) * 64 + (0x80 + c.toNat % 64 - 0x80) = c.toNat := by
        omega
      rw [hn, Char.ofNat_toNat]
    · rw [if_neg h2]
      by_cases h3 : c.toNat < 0x10000
      · rw [if_pos h3]
        show utf8DecodeReplace ((0xE0 + c.toNat / 4096) :: (0x80 + c.toNat / 64 % 64)
            :: (0x80 + c.toNat % 64) :: bs) = _
        rw [utf8DecodeReplace.eq_def]
        simp only []
        rw [if_neg (by omega), if_neg (by omega), if_pos (by constructor <;> omega)]
        rw [if_pos (by
          simp only [cont1OK3, isCont]
          split_ifs with he1 he2 <;> simp <;> omega)]
        rw [if_pos (by simp [isCont]; omega)]
        have hn : (0xE0 + c.toNat / 4096 - 0xE0) * 4096 + (0x80 + c.toNat / 64 % 64 - 0x80) * 64
            + (0x80 + c.toNat % 64 - 0x80) = c.toNat := by
          omega
        rw [hn, Char.ofNat_toNat]
      · rw [if_neg h3]
        show utf8DecodeReplace ((0xF0 + c.toNat / 262144) :: (0x80 + c.toNat / 4096 % 64)
            :: (0x80 + c.toNat / 64 % 64) :: (0x80 + c.toNat % 64) :: bs) = _
        rw [utf8DecodeReplace.eq_def]
        simp only []
        rw [if_neg (by omega), if_neg (by omega), if_neg (by omega),
          if_pos (by constructor <;> omega)]
        rw [if_pos (by
          simp only [cont1OK4, isCont]
          split_ifs with he1 he2 <;> simp <;> omega)]
        rw [if_pos (by simp [isCont]; omega)]
        rw [if_pos (by simp [isCont]; omega)]
        have hn : (0xF0 + c.toNat / 262144 - 0xF0) * 262144 + (0x80 + c.toNat / 4096 % 64 - 0x80) * 4096
            + (0x80 + c.toNat / 64 % 64 - 0x80) * 64 + (0x80 + c.toNat % 64 - 0x80) = c.toNat := by
          omega
        rw [hn, Char.ofNat_toNat]

theorem utf8_decode_flat (cs : List Char) :
    utf8DecodeReplace ((cs.map utf8EncodeChar).flatten) = cs := by
  induction cs with
  | nil => rfl
  | cons c t ih =>
    rw [List.map_cons, List.flatten_cons, utf8_decode_encode, ih]

theorem toNat_ofNat_small {n : Nat} (h : n < 0xD800) : (Char.ofNat n).toNat = n := by
  unfold Char.ofNat
  rw [dif_pos (Or.inl h)]
  rfl

theorem hexVal_hexUpper {n : Nat} (h : n < 16) : hexVal? (hexUpper n) = some n := by
  by_cases h10 : n < 10
  · have hx : hexUpper n = Char.ofNat (48 + n) := by unfold hexUpper; rw [if_pos h10]
    have ht : (Char.ofNat (48 + n)).toNat = 48 + n := toNat_ofNat_small (by omega)
    rw [hx]
    unfold hexVal?
    rw [ht, if_pos (by omega)]
    simp only [Option.some.injEq]
    omega
  · have hx : hexUpper n = Char.ofNat (55 + n) := by unfold hexUpper; rw [if_neg h10]
    have ht : (Char.ofNat (55 + n)).toNat = 55 + n := toNat_ofNat_small (by omega)
    rw [hx]
    unfold hexVal?
    rw [ht, if_neg (by omega), if_pos (by omega)]
    simp only [Option.some.injEq]
    omega

theorem toNat_hexUpper {n : Nat} (h : n < 16) :
    (hexUpper n).toNat = if n < 10 then 48 + n else 55 + n := by
  unfold hexUpper
  by_cases h10 : n < 10
  · rw [if_pos h10, if_pos h10]
    exact toNat_ofNat_small (by omega)
  · rw [if_neg h10, if_neg h10]
    exact toNat_ofNat_small (by omega)

theorem pctTokens_lit {c : Char} (r : List Char) (h : c ≠ '%') :
    pctTokens (c :: r) = Sum.inl c :: pctTokens r := by
  rw [pctTokens.eq_def]
  simp only []
  rw [if_neg h]

theorem pctTokens_block {bs : List Nat} (r : List Char) (h : ∀ b ∈ bs, b < 256) :
    pctTokens (pctBlockBytes bs ++ r) = bs.map Sum.inr ++ pctTokens r := by
  induction bs with
  | nil => simp [pctBlockBytes]
  | cons b t ih =>
    have hb := h b (by simp)
    have hiv1 : hexVal? (hexUpper (b / 16)) = some (b / 16) := hexVal_hexUpper (by omega)
    have hiv2 : hexVal? (hexUpper (b % 16)) = some (b % 16) := hexVal_hexUpper (by omega)
    show pctTokens ('%' :: hexUpper (b / 16) :: hexUpper (b % 16)
        :: (pctBlockBytes t ++ r)) = _
    rw [pctTokens.eq_def]
    simp only [if_pos rfl, hiv1, hiv2]
    rw [ih (fun x hx => h x (by simp [hx]))]
    have hbb : b / 16 * 16 + b % 16 = b := by omega
    simp [hbb]

theorem detokAux_inr_append (bs : List Nat) (acc : List Nat) (ts : List (Char ⊕ Nat)) :
    detokAux acc (bs.map Sum.inr ++ ts) = detokAux (bs.reverse ++ acc) ts := by
  induction bs generalizing acc with
  | nil => rfl
  | cons b t ih =>
    show detokAux (b :: acc) (t.map Sum.inr ++ ts) = _
    rw [ih]
    simp

theorem quoteBytes_append (safe : List Char) (a b : List Nat) :
    quoteBytes safe (a ++ b) = quoteBytes safe a ++ quoteBytes safe b := by
  induction a with
  | nil => rfl
  | cons x t ih =>
    show (if _ then _ else _) ++ quoteBytes safe (t ++ b) = _
    rw [ih]
    simp [quoteBytes]

theorem utf8EncodeChar_ge {c : Char} (h : 0x80 ≤ c.toNat) :
    ∀ b ∈ utf8EncodeChar c, 0x80 ≤ b := by
  intro b hb
  unfold utf8EncodeChar at hb
  rw [if_neg (by omega)] at hb
  by_cases h2 : c.toNat < 0x800
  · rw [if_pos h2] at hb; simp at hb; rcases hb with hb | hb <;> omega
  · rw [if_neg h2] at hb
    by_cases h3 : c.toNat < 0x10000
    · rw [if_pos h3] at hb; simp at hb; rcases hb with hb | hb | hb <;> omega
    · rw [if_neg h3] at hb; simp at hb; rcases hb with hb | hb | hb | hb <;> omega

theorem quoteBytes_enc (safe : List Char) (hsafe : ∀ s ∈ safe, s.toNat < 128) (c : Char) :
    quoteBytes safe (utf8EncodeChar c) = encQsafe safe c := by
  unfold encQsafe
  by_cases ha : c.toNat < 0x80
  · have henc : utf8EncodeChar c = [c.toNat] := by unfold utf8EncodeChar; rw [if_pos ha]
    rw [henc]
    show (if alwaysSafeByte c.toNat || Char.ofNat c.toNat ∈ safe then [Char.ofNat c.toNat]
      else ['%', hexUpper (c.toNat / 16), hexUpper (c.toNat % 16)]) ++ [] = _
    rw [Char.ofNat_toNat, List.append_nil]
    by_cases hc : alwaysSafeByte c.toNat || c ∈ safe
    · rw [if_pos hc, if_pos hc]
    · rw [if_neg hc, if_neg hc]
      simp [pctBlockBytes]
  · have hcond : (alwaysSafeByte c.toNat || c ∈ safe) = false := by
      rw [Bool.or_eq_false_iff]
      constructor
      · simp [alwaysSafeByte]
        omega
      · simp only [decide_eq_false_iff_not]
        intro hmem
        have := hsafe c hmem
        omega
    rw [hcond]
    simp only [Bool.false_eq_true, if_false]
    have hge := utf8EncodeChar_ge (by omega : 0x80 ≤ c.toNat)
    have hlt := utf8EncodeChar_lt c
    generalize hE : utf8EncodeChar c = bs at hge hlt
    clear hE hcond ha
    induction bs with
    | nil => rfl
    | cons b t ih =>
      have hb := hge b (by simp)
      have hb2 := hlt b (by simp)
      have hcb : (alwaysSafeByte b || Char.ofNat b ∈ safe) = false := by
        rw [Bool.or_eq_false_iff]
        constructor
        · simp [alwaysSafeByte]; omega
        · simp only [decide_eq_false_iff_not]
          intro hmem
          have h1 := hsafe _ hmem
          have h2 : (Char.ofNat b).toNat = b := toNat_ofNat_small (by omega)
          omega
      show (if _ then _ else _) ++ quoteBytes safe t = _
      rw [hcb]
      simp only [Bool.false_eq_true, if_false]
      rw [ih (fun x hx => hge x (by simp [hx])) (fun x hx => hlt x (by simp [hx]))]
      simp [pctBlockBytes]

theorem pyQuote_eq (safe : List Char) (hsafe : ∀ s ∈ safe, s.toNat < 128) (l : List Char) :
    pyQuote l safe = (l.map (encQsafe safe)).flatten := by
  induction l with
  | nil => rfl
  | cons c t ih =>
    unfold pyQuote utf8Encode
    rw [List.map_cons, List.flatten_cons, quoteBytes_append]
    unfold pyQuote utf8Encode at ih
    rw [ih, quoteBytes_enc safe hsafe c]
    simp

theorem mem_flatten_map {α β : Type} {c : β} {f : α → List β} {l : List α}
    (h : c ∈ (l.map f).flatten) : ∃ d ∈ l, c ∈ f d := by
  rw [List.mem_flatten] at h
  obtain ⟨x, hx, hc⟩ := h
  rw [List.mem_map] at hx
  obtain ⟨d, hd, hfd⟩ := hx
  exact ⟨d, hd, hfd ▸ hc⟩

theorem mem_pctBlockBytes {c : Char} {bs : List Nat} (hlt : ∀ b ∈ bs, b < 256)
    (h : c ∈ pctBlockBytes bs) :
    c = '%' ∨ (48 ≤ c.toNat ∧ c.toNat ≤ 57) ∨ (65 ≤ c.toNat ∧ c.toNat ≤ 70) := by
  unfold pctBlockBytes at h
  obtain ⟨b, hb, hc⟩ := mem_flatten_map h
  have hblt := hlt b hb
  simp only [List.mem_cons, List.mem_singleton] at hc
  rcases hc with hc | hc | hc
  · exact Or.inl hc
  · subst hc
    rw [toNat_hexUpper (by omega)]
    split_ifs <;> omega
  · rcases hc with hc | hc
    · subst hc
      rw [toNat_hexUpper (by omega)]
      split_ifs <;> omega
    · cases hc

theorem mem_encQsafe {c' d : Char} {safe : List Char} (h : c' ∈ encQsafe safe d) :
    (c' = d ∧ (alwaysSafeByte d.toNat || d ∈ safe) = true)
    ∨ (c' = '%' ∨ (48 ≤ c'.toNat ∧ c'.toNat ≤ 57) ∨ (65 ≤ c'.toNat ∧ c'.toNat ≤ 70)) := by
  unfold encQsafe at h
  by_cases hc : (alwaysSafeByte d.toNat || d ∈ safe) = true
  · rw [if_pos hc] at h
    simp at h
    exact Or.inl ⟨h, hc⟩
  · rw [if_neg hc] at h
    exact Or.inr (mem_pctBlockBytes (utf8EncodeChar_lt d) h)

theorem plus_not_mem_pyQuote {l safe : List Char} (hsafe : ∀ s ∈ safe, s.toNat < 128)
    (hplus : '+' ∉ safe) : '+' ∉ pyQuote l safe := by
  intro hmem
  rw [pyQuote_eq safe hsafe] at hmem
  obtain ⟨d, _, hd⟩ := mem_flatten_map hmem
  rcases mem_encQsafe hd with ⟨heq, hcond⟩ | h
  · rw [← heq] at hcond
    rw [Bool.or_eq_true] at hcond
    rcases hcond with hcond | hcond
    · rw [show ('+').toNat = 43 from rfl] at hcond
      simp [alwaysSafeByte] at hcond
    · exact hplus (by simpa using hcond)
  · rcases h with h | h | h
    · cases h
    · rw [show ('+').toNat = 43 from rfl] at h
      omega
    · rw [show ('+').toNat = 43 from rfl] at h
      omega

theorem replacePlus_noop {l : List Char} (h : ∀ c ∈ l, c ≠ '+') : replacePlus l = l := by
  unfold replacePlus
  rw [List.map_congr_left (fun c hc => by rw [if_neg (h c hc)])]
  exact List.map_id _

theorem replacePlus_substPlus {l : List Char} (h : '+' ∉ l) :
    replacePlus (l.map (fun c => if c = ' ' then '+' else c)) = l := by
  unfold replacePlus
  have heq : List.map ((fun c => if c = '+' then ' ' else c) ∘ fun c => if c = ' ' then '+' else c) l
      = List.map id l := by
    refine List.map_congr_left (fun c hc => ?_)
    simp only [Function.comp_apply, id]
    by_cases hs : c = ' '
    · simp [hs]
    · have hp : c ≠ '+' := fun hcc => h (hcc ▸ hc)
      simp [hs, hp]
  rw [List.map_map, heq, List.map_id]

theorem encQsafe_space_eq_encRP (c : Char) : encQsafe [' '] c = encRP c := by
  unfold encQsafe encRP
  by_cases hs : c = ' '
  · subst hs
    rw [if_pos (by decide), if_pos rfl]
  · have hm : (decide (c ∈ [' '])) = false := by simp [hs]
    rw [if_neg hs]
    rw [hm, Bool.or_false]

theorem encQsafe_nil_eq_encRP {c : Char} (h : c ≠ ' ') : encQsafe [] c = encRP c := by
  unfold encQsafe encRP
  rw [if_neg h]
  simp

theorem replacePlus_quotePlus (l : List Char) :
    replacePlus (pyQuotePlus l) = (l.map encRP).flatten := by
  unfold pyQuotePlus
  by_cases hs : ' ' ∈ l
  · rw [if_neg (by simp [hs])]
    rw [replacePlus_substPlus (plus_not_mem_pyQuote (by intro s hs'; simp at hs'; subst hs'; decide)
      (by decide))]
    rw [pyQuote_eq [' '] (by intro s hs'; simp at hs'; subst hs'; decide)]
    exact congrArg List.flatten (List.map_congr_left (fun c _ => encQsafe_space_eq_encRP c))
  · rw [if_pos (by simpa using hs)]
    rw [replacePlus_noop (fun c hc hp => plus_not_mem_pyQuote (by simp) (by simp) (hp ▸ hc))]
    rw [pyQuote_eq [] (by simp)]
    exact congrArg List.flatten (List.map_congr_left
      (fun c hc => encQsafe_nil_eq_encRP (fun he => hs (he ▸ hc))))

theorem detok_enc (l : List Char) : ∀ xs : List Char,
    detokAux ((xs.map utf8EncodeChar).flatten).reverse (pctTokens ((l.map encRP).flatten))
      = xs ++ l := by
  induction l with
  | nil =>
    intro xs
    show detokAux _ [] = _
    rw [detokAux, List.reverse_reverse, utf8_decode_flat, List.append_nil]
  | cons c t ih =>
    intro xs
    have lit : ∀ (d : Char), d ≠ '%' → encRP c = [d] →
        detokAux ((xs.map utf8EncodeChar).flatten).reverse
          (pctTokens (((c :: t).map encRP).flatten)) = xs ++ d :: t := by
      intro d hd henc
      rw [List.map_cons, List.flatten_cons, henc, List.cons_append,
        pctTokens_lit _ hd, detokAux, List.reverse_reverse, utf8_decode_flat]
      have h0 := ih []
      simp only [List.map_nil, List.flatten_nil, List.reverse_nil, List.nil_append] at h0
      simp only [List.nil_append]
      rw [h0]
    by_cases hsp : c = ' '
    · subst hsp
      exact lit ' ' (by decide) (by rw [encRP, if_pos rfl])
    · by_cases hsf : alwaysSafeByte c.toNat = true
      · have hpct : c ≠ '%' := by
          intro hc
          subst hc
          rw [show ('%').toNat = 37 from rfl] at hsf
          simp [alwaysSafeByte] at hsf
        exact lit c hpct (by rw [encRP, if_neg hsp, if_pos hsf])
      · have henc : encRP c = pctBlockBytes (utf8EncodeChar c) := by
          rw [encRP, if_neg hsp, if_neg hsf]
        rw [List.map_cons, List.flatten_cons, henc,
          pctTokens_block _ (utf8EncodeChar_lt c), detokAux_inr_append]
        have hacc : (utf8EncodeChar c).reverse ++ ((xs.map utf8EncodeChar).flatten).reverse
            = (((xs ++ [c]).map utf8EncodeChar).flatten).reverse := by
          rw [← List.reverse_append, List.map_append, List.flatten_append]
          simp
        rw [hacc, ih (xs ++ [c])]
        simp

theorem unquote_roundtrip (l : List Char) : pyUnquote (replacePlus (pyQuotePlus l)) = l := by
  rw [replacePlus_quotePlus]
  unfold pyUnquote
  have := detok_enc l []
  simpa using this

theorem mem_pyQuotePlus {c : Char} {l : List Char} (h : c ∈ pyQuotePlus l) :
    encodedOK c = true := by
  have classify : ∀ (safe : List Char), (∀ s ∈ safe, s.toNat < 128) → ∀ {c' : Char},
      c' ∈ pyQuote l safe →
      (alwaysSafeByte c'.toNat = true ∨ c' ∈ safe) ∨ c' = '%'
      ∨ (48 ≤ c'.toNat ∧ c'.toNat ≤ 57) ∨ (65 ≤ c'.toNat ∧ c'.toNat ≤ 70) := by
    intro safe hsafe c' hc'
    rw [pyQuote_eq safe hsafe] at hc'
    obtain ⟨d, _, hd⟩ := mem_flatten_map hc'
    rcases mem_encQsafe hd with ⟨heq, hcond⟩ | hrest
    · subst heq
      rw [Bool.or_eq_true] at hcond
      rcases hcond with hcond | hcond
      · exact Or.inl (Or.inl hcond)
      · exact Or.inl (Or.inr (by simpa using hcond))
    · exact Or.inr hrest
  unfold pyQuotePlus at h
  by_cases hs : ' ' ∈ l
  · rw [if_neg (by simp [hs])] at h
    obtain ⟨c', hc', hsub⟩ := List.mem_map.mp h
    rcases classify [' '] (by intro s hs'; simp at hs'; subst hs'; decide) hc' with
      hcl | hcl | hcl | hcl
    · rcases hcl with hcl | hcl
      · have hcne : c' ≠ ' ' := by
          intro he
          subst he
          rw [show (' ').toNat = 32 from rfl] at hcl
          simp [alwaysSafeByte] at hcl
        rw [if_neg hcne] at hsub
        subst hsub
        simp [encodedOK, hcl]
      · simp at hcl
        subst hcl
        rw [if_pos rfl] at hsub
        subst hsub
        simp [encodedOK]
    · subst hcl
      rw [if_neg (by decide)] at hsub
      subst hsub
      simp [encodedOK]
    · have hcne : c' ≠ ' ' := by
        intro he
        subst he
        rw [show (' ').toNat = 32 from rfl] at hcl
        omega
      rw [if_neg hcne] at hsub
      subst hsub
      simp only [encodedOK, Bool.or_eq_true]
      refine Or.inl (Or.inl ?_)
      simp [alwaysSafeByte]
      omega
    · have hcne : c' ≠ ' ' := by
        intro he
        subst he
        rw [show (' ').toNat = 32 from rfl] at hcl
        omega
      rw [if_neg hcne] at hsub
      subst hsub
      simp only [encodedOK, Bool.or_eq_true]
      refine Or.inl (Or.inl ?_)
      simp [alwaysSafeByte]
      omega
  · rw [if_pos (by simpa using hs)] at h
    rcases classify [] (by simp) h with hcl | hcl | hcl | hcl
    · rcases hcl with hcl | hcl
      · simp [encodedOK, hcl]
      · cases hcl
    · subst hcl
      simp [encodedOK]
    · simp only [encodedOK, Bool.or_eq_true]
      refine Or.inl (Or.inl ?_)
      simp [alwaysSafeByte]
      omega
    · simp only [encodedOK, Bool.or_eq_true]
      refine Or.inl (Or.inl ?_)
      simp [alwaysSafeByte]
      omega

theorem mem_intercalateChar {c ch : Char} {parts : List (List Char)}
    (h : c ∈ intercalateChar ch parts) : c = ch ∨ ∃ p ∈ parts, c ∈ p := by
  induction parts with
  | nil => cases h
  | cons p ps ih =>
    rw [intercalateChar] at h
    rcases List.mem_append.mp h with h' | h'
    · exact Or.inr ⟨p, by simp, h'⟩
    · obtain ⟨q, hq, hc⟩ := mem_flatten_map h'
      rcases List.mem_cons.mp hc with hc | hc
      · exact Or.inl hc
      · exact Or.inr ⟨q, by simp [hq], hc⟩

theorem mem_urlencode {c : Char} {d : List (List Char × List (List Char))}
    (h : c ∈ urlencodeDoseq d) : qencChar c = true := by
  unfold urlencodeDoseq at h
  rcases mem_intercalateChar h with h' | ⟨p, hp, hc⟩
  · subst h'
    simp [qencChar]
  · obtain ⟨kv, _, hkv⟩ := mem_flatten_map hp
    obtain ⟨v, _, hv⟩ := List.mem_map.mp hkv
    subst hv
    rcases List.mem_append.mp hc with h' | h'
    · simp [qencChar, mem_pyQuotePlus h']
    · rcases List.mem_cons.mp h' with h' | h'
      · subst h'
        simp [qencChar]
      · simp [qencChar, mem_pyQuotePlus h']

theorem encodedOK_toNat {c : Char} (h : encodedOK c = true) :
    c.toNat = 37 ∨ c.toNat = 43 ∨ c.toNat = 45 ∨ c.toNat = 46 ∨ (48 ≤ c.toNat ∧ c.toNat ≤ 57)
    ∨ (65 ≤ c.toNat ∧ c.toNat ≤ 90) ∨ c.toNat = 95 ∨ (97 ≤ c.toNat ∧ c.toNat ≤ 122)
    ∨ c.toNat = 126 := by
  simp only [encodedOK, alwaysSafeByte, Bool.or_eq_true, decide_eq_true_eq] at h
  rcases h with (h | h) | h
  · rcases h with ((((((h | h) | h) | h) | h) | h) : _ ∨ _) <;> simp_all <;> omega
  · subst h; simp
  · subst h; simp

theorem qencChar_toNat {c : Char} (h : qencChar c = true) :
    c.toNat = 37 ∨ c.toNat = 38 ∨ c.toNat = 43 ∨ c.toNat = 45 ∨ c.toNat = 46
    ∨ (48 ≤ c.toNat ∧ c.toNat ≤ 57) ∨ c.toNat = 61 ∨ (65 ≤ c.toNat ∧ c.toNat ≤ 90)
    ∨ c.toNat = 95 ∨ (97 ≤ c.toNat ∧ c.toNat ≤ 122) ∨ c.toNat = 126 := by
  simp only [qencChar, Bool.or_eq_true, decide_eq_true_eq] at h
  rcases h with (h | h) | h
  · have := encodedOK_toNat h
    omega
  · subst h; simp
  · subst h; simp

theorem splitOnCharL_no_sep {ch : Char} {p : List Char} (h : ch ∉ p) :
    splitOnCharL ch p = [p] := by
  induction p with
  | nil => rfl
  | cons c t ih =>
    have hc : c ≠ ch := fun hcc => h (by simp [hcc])
    have ht := ih (fun hm => h (List.mem_cons_of_mem _ hm))
    rw [splitOnCharL, if_neg hc, ht]

theorem splitOnCharL_cons_sep {ch : Char} {p : List Char} (r : List Char) (h : ch ∉ p) :
    splitOnCharL ch (p ++ ch :: r) = p :: splitOnCharL ch r := by
  induction p with
  | nil => simp [splitOnCharL]
  | cons c t ih =>
    have hc : c ≠ ch := fun hcc => h (by simp [hcc])
    have ht := ih (fun hm => h (List.mem_cons_of_mem _ hm))
    rw [List.cons_append, splitOnCharL, if_neg hc, ht]

theorem splitOn_intercalate {ch : Char} (parts : List (List Char)) (hne : parts ≠ [])
    (hfree : ∀ p ∈ parts, ch ∉ p) :
    splitOnCharL ch (intercalateChar ch parts) = parts := by
  induction parts with
  | nil => exact absurd rfl hne
  | cons p ps ih =>
    cases ps with
    | nil =>
      have : intercalateChar ch [p] = p := by simp [intercalateChar]
      rw [this, splitOnCharL_no_sep (hfree p (by simp))]
    | cons q qs =>
      have hstep : intercalateChar ch (p :: q :: qs) = p ++ ch :: intercalateChar ch (q :: qs) := by
        simp [intercalateChar]
      rw [hstep, splitOnCharL_cons_sep _ (hfree p (by simp)),
        ih (by simp) (fun r hr => hfree r (by simp [hr])) ]

theorem parseQslParts_append (a b : List (List Char)) :
    parseQslParts (a ++ b) = parseQslParts a ++ parseQslParts b := by
  induction a with
  | nil => rfl
  | cons nv rest ih =>
    rw [List.cons_append, parseQslParts, parseQslParts]
    by_cases h : nv = []
    · rw [if_pos h, if_pos h, ih]
    · rw [if_neg h, if_neg h]
      simp [ih]

theorem parseQslParts_pair (k v : List Char) :
    parseQslParts [pyQuotePlus k ++ '=' :: pyQuotePlus v] = [(k, v)] := by
  have hne : pyQuotePlus k ++ '=' :: pyQuotePlus v ≠ [] := by
    cases h : pyQuotePlus k <;> simp [h]
  have heq : ('=' : Char) ∉ pyQuotePlus k :=
    fun hm => absurd (mem_pyQuotePlus hm) (by decide)
  rw [parseQslParts, if_neg hne]
  simp only [breakAtFirst_append_notMem _ heq]
  simp [unquote_roundtrip, parseQslParts]

theorem parseQslParts_key (k : List Char) (vs : List (List Char)) :
    parseQslParts (vs.map (fun v => pyQuotePlus k ++ '=' :: pyQuotePlus v))
      = vs.map (fun v => (k, v)) := by
  induction vs with
  | nil => rfl
  | cons v vt ih =>
    rw [List.map_cons, ← List.singleton_append, parseQslParts_append, parseQslParts_pair,
      ih, List.map_cons]
    rfl

theorem parseQslParts_pairParts (d : List (List Char × List (List Char))) :
    parseQslParts (pairParts d) = flattenKV d := by
  induction d with
  | nil => rfl
  | cons kv dt ih =>
    have h1 : pairParts (kv :: dt)
        = kv.2.map (fun v => pyQuotePlus kv.1 ++ '=' :: pyQuotePlus v) ++ pairParts dt := by
      simp [pairParts]
    have h2 : flattenKV (kv :: dt) = kv.2.map (fun v => (kv.1, v)) ++ flattenKV dt := by
      simp [flattenKV]
    rw [h1, h2, parseQslParts_append, parseQslParts_key, ih]

theorem addPair_fresh (acc : List (List Char × List (List Char))) (k : List Char)
    (v : List Char) (h : ∀ e ∈ acc, e.1 ≠ k) : addPair acc (k, v) = acc ++ [(k, [v])] := by
  induction acc with
  | nil => rfl
  | cons e rest ih =>
    obtain ⟨k0, vs⟩ := e
    rw [addPair, if_neg (fun hc => h (k0, vs) (by simp) hc),
      ih (fun e' he' => h e' (by simp [he']))]
    rfl

theorem addPair_last (acc : List (List Char × List (List Char))) (k : List Char)
    (vs0 : List (List Char)) (v : List Char) (h : ∀ e ∈ acc, e.1 ≠ k) :
    addPair (acc ++ [(k, vs0)]) (k, v) = acc ++ [(k, vs0 ++ [v])] := by
  induction acc with
  | nil => simp [addPair]
  | cons e rest ih =>
    obtain ⟨k0, vs⟩ := e
    rw [List.cons_append, addPair, if_neg (fun hc => h (k0, vs) (by simp) hc),
      ih (fun e' he' => h e' (by simp [he']))]
    rfl

theorem foldl_addPair_key (acc : List (List Char × List (List Char))) (k : List Char)
    (vs0 vs : List (List Char)) (h : ∀ e ∈ acc, e.1 ≠ k) :
    List.foldl addPair (acc ++ [(k, vs0)]) (vs.map (fun v => (k, v)))
      = acc ++ [(k, vs0 ++ vs)] := by
  induction vs generalizing vs0 with
  | nil => simp
  | cons v vt ih =>
    rw [List.map_cons, List.foldl_cons, addPair_last acc k vs0 v h, ih (vs0 ++ [v])]
    simp

theorem foldl_addPair_flatten (d : List (List Char × List (List Char))) :
    ∀ acc, d.Pairwise (fun a b => a.1 ≠ b.1) → (∀ kv ∈ d, kv.2 ≠ []) →
    (∀ kv ∈ d, ∀ e ∈ acc, e.1 ≠ kv.1) →
    List.foldl addPair acc (flattenKV d) = acc ++ d := by
  induction d with
  | nil =>
    intro acc _ _ _
    simp [flattenKV]
  | cons kv dt ih =>
    intro acc hpw hne hdisj
    obtain ⟨k, vs⟩ := kv
    obtain ⟨v0, vt, rfl⟩ := List.exists_cons_of_ne_nil (hne (k, vs) (by simp))
    have hsplit : flattenKV ((k, v0 :: vt) :: dt)
        = (v0 :: vt).map (fun v => ((k : List Char), v)) ++ flattenKV dt := by
      simp [flattenKV]
    have hfresh : ∀ e ∈ acc, e.1 ≠ k := fun e he => hdisj (k, v0 :: vt) (by simp) e he
    rw [hsplit, List.foldl_append, List.map_cons, List.foldl_cons,
      addPair_fresh acc k v0 hfresh, foldl_addPair_key acc k [v0] vt hfresh,
      ih (acc ++ [(k, [v0] ++ vt)]) hpw.of_cons (fun kv' h' => hne kv' (by simp [h'])) ?_]
    · simp
    · intro kv' hkv' e he
      rcases List.mem_append.mp he with he | he
      · exact hdisj kv' (by simp [hkv']) e he
      · have he' : e = (k, [v0] ++ vt) := by simpa using he
        rw [he']
        exact List.rel_of_pairwise_cons hpw hkv'

theorem keys_addPair {x : List Char × List (List Char)}
    {acc : List (List Char × List (List Char))} {k v : List Char}
    (h : x ∈ addPair acc (k, v)) : x.1 = k ∨ ∃ e ∈ acc, x.1 = e.1 := by
  induction acc with
  | nil =>
    simp [addPair] at h
    simp [h]
  | cons e rest ih =>
    obtain ⟨k0, vs⟩ := e
    rw [addPair] at h
    by_cases hk : k0 = k
    · rw [if_pos hk] at h
      rcases List.mem_cons.mp h with h | h
      · exact Or.inr ⟨(k0, vs), by simp, by rw [h]⟩
      · exact Or.inr ⟨x, by simp [h], rfl⟩
    · rw [if_neg hk] at h
      rcases List.mem_cons.mp h with h | h
      · exact Or.inr ⟨(k0, vs), by simp, by rw [h]⟩
      · rcases ih h with h' | ⟨e, he, hx⟩
        · exact Or.inl h'
        · exact Or.inr ⟨e, by simp [he], hx⟩

theorem addPair_vals {acc : List (List Char × List (List Char))}
    (h : ∀ e ∈ acc, e.2 ≠ []) (k v : List Char) :
    ∀ x ∈ addPair acc (k, v), x.2 ≠ [] := by
  induction acc with
  | nil =>
    intro x hx
    simp [addPair] at hx
    simp [hx]
  | cons e rest ih =>
    obtain ⟨k0, vs⟩ := e
    intro x hx
    rw [addPair] at hx
    by_cases hk : k0 = k
    · rw [if_pos hk] at hx
      rcases List.mem_cons.mp hx with hx | hx
      · rw [hx]
        simp
      · exact h x (by simp [hx])
    · rw [if_neg hk] at hx
      rcases List.mem_cons.mp hx with hx | hx
      · rw [hx]
        exact h (k0, vs) (by simp)
      · exact ih (fun e' he' => h e' (by simp [he'])) x hx

theorem addPair_pairwise {acc : List (List Char × List (List Char))}
    (h : acc.Pairwise (fun a b => a.1 ≠ b.1)) (k v : List Char) :
    (addPair acc (k, v)).Pairwise (fun a b => a.1 ≠ b.1) := by
  induction acc with
  | nil => simp [addPair]
  | cons e rest ih =>
    obtain ⟨k0, vs⟩ := e
    rw [addPair]
    have hrest := h.of_cons
    have hhead : ∀ b ∈ rest, k0 ≠ b.1 := fun b hb => List.rel_of_pairwise_cons h hb
    by_cases hk : k0 = k
    · rw [if_pos hk]
      exact List.Pairwise.cons (fun b hb => hhead b hb) hrest
    · rw [if_neg hk]
      refine List.Pairwise.cons ?_ (ih hrest)
      intro b hb
      rcases keys_addPair hb with hb1 | ⟨e, he, hb1⟩
      · rw [hb1]
        exact hk
      · rw [hb1]
        exact hhead e he

theorem parse_qs_canon (qs : List Char) : qsCanon (parse_qs qs) := by
  unfold parse_qs
  generalize parse_qsl qs = ps
  suffices h : ∀ (ps : List (List Char × List Char)) acc, qsCanon acc →
      qsCanon (List.foldl addPair acc ps) from h ps [] ⟨List.Pairwise.nil, by simp⟩
  intro ps
  induction ps with
  | nil => exact fun acc h => h
  | cons p pt ih =>
    intro acc h
    rw [List.foldl_cons]
    obtain ⟨k, v⟩ := p
    exact ih _ ⟨addPair_pairwise h.1 k v, addPair_vals h.2 k v⟩

theorem urlencode_ne_nil {d : List (List Char × List (List Char))} (hd : d ≠ [])
    (hv : ∀ kv ∈ d, kv.2 ≠ []) : urlencodeDoseq d ≠ [] := by
  obtain ⟨⟨k, vs⟩, dt, rfl⟩ := List.exists_cons_of_ne_nil hd
  obtain ⟨v0, vt, rfl⟩ := List.exists_cons_of_ne_nil (hv (k, vs) (by simp))
  simp only [urlencodeDoseq, List.map_cons, List.flatten_cons, List.cons_append,
    intercalateChar]
  simp

theorem pairParts_ne_nil {d : List (List Char × List (List Char))} (hd : d ≠ [])
    (hv : ∀ kv ∈ d, kv.2 ≠ []) : pairParts d ≠ [] := by
  obtain ⟨⟨k, vs⟩, dt, rfl⟩ := List.exists_cons_of_ne_nil hd
  obtain ⟨v0, vt, rfl⟩ := List.exists_cons_of_ne_nil (hv (k, vs) (by simp))
  simp [pairParts]

theorem amp_free_pairParts {d : List (List Char × List (List Char))} {p : List Char}
    (hp : p ∈ pairParts d) : ('&' : Char) ∉ p := by
  intro hc
  obtain ⟨kv, _, hp'⟩ := mem_flatten_map hp
  obtain ⟨v, _, rfl⟩ := List.mem_map.mp hp'
  rcases List.mem_append.mp hc with h | h
  · exact absurd (mem_pyQuotePlus h) (by decide)
  · rcases List.mem_cons.mp h with h | h
    · exact absurd h (by decide)
    · exact absurd (mem_pyQuotePlus h) (by decide)

theorem parse_qs_urlencode {d : List (List Char × List (List Char))} (hd : d ≠ [])
    (hpw : d.Pairwise (fun a b => a.1 ≠ b.1)) (hv : ∀ kv ∈ d, kv.2 ≠ []) :
    parse_qs (urlencodeDoseq d) = d := by
  unfold parse_qs parse_qsl
  rw [if_neg (urlencode_ne_nil hd hv)]
  have hsplit : splitOnCharL '&' (urlencodeDoseq d) = pairParts d := by
    unfold urlencodeDoseq
    exact splitOn_intercalate _ (pairParts_ne_nil hd hv)
      (fun p hp => amp_free_pairParts hp)
  rw [hsplit, parseQslParts_pairParts,
    foldl_addPair_flatten d [] hpw hv (by simp)]
  simp

theorem normQuery_fix (q : List Char) : normQuery (normQuery q) = normQuery q := by
  have hcanon := parse_qs_canon q
  set f := (parse_qs q).filter
    (fun kv => ¬ (kv.1.map Char.toLower) ∈ DENYLIST_PARAMS) with hf
  by_cases hfe : f = []
  · have h1 : normQuery q = [] := by
      simp only [normQuery, ← hf]
      rw [if_neg (by simp [hfe])]
    rw [h1]
    rfl
  · have h1 : normQuery q = urlencodeDoseq f := by
      simp only [normQuery, ← hf]
      rw [if_pos hfe]
    have hcanonf : qsCanon f :=
      ⟨hcanon.1.filter _, fun kv hkv => hcanon.2 kv (List.mem_of_mem_filter hkv)⟩
    have hpass : ∀ kv ∈ f, ¬ (kv.1.map Char.toLower) ∈ DENYLIST_PARAMS := by
      intro kv hkv
      have := List.of_mem_filter hkv
      simpa using this
    have hback : parse_qs (urlencodeDoseq f) = f :=
      parse_qs_urlencode hfe hcanonf.1 hcanonf.2
    have hfil : f.filter (fun kv => ¬ (kv.1.map Char.toLower) ∈ DENYLIST_PARAMS) = f :=
      List.filter_eq_self.mpr (fun kv hkv => by simpa using hpass kv hkv)
    rw [h1]
    simp only [normQuery, hback, hfil]
    rw [if_pos hfe]

/-! Facts feeding the `normalize_url` idempotence proof. -/

theorem char_ne_of_toNat_ne {a b : Char} (h : a.toNat ≠ b.toNat) : a ≠ b :=
  fun he => h (by rw [he])

theorem keepUrlByte_of_ge {c : Char} (h : 14 ≤ c.toNat) : keepUrlByte c = true := by
  simp only [keepUrlByte, Bool.not_eq_true', Bool.or_eq_false_iff, decide_eq_false_iff_not]
  refine ⟨⟨?_, ?_⟩, ?_⟩ <;> (intro he; rw [he] at h; revert h; decide)

theorem isC0OrSpace_false_of {c : Char} (h : 33 ≤ c.toNat) : isC0OrSpace c = false := by
  simp only [isC0OrSpace, decide_eq_false_iff_not]
  omega

theorem notNetlocDelim_of {c : Char} (h1 : c.toNat ≠ 47) (h2 : c.toNat ≠ 63)
    (h3 : c.toNat ≠ 35) : notNetlocDelim c = true := by
  simp only [notNetlocDelim, Bool.not_eq_true', Bool.or_eq_false_iff,
    decide_eq_false_iff_not]
  exact ⟨⟨char_ne_of_toNat_ne (by simpa using h1), char_ne_of_toNat_ne (by simpa using h2)⟩,
    char_ne_of_toNat_ne (by simpa using h3)⟩

theorem isSchemeChar_toNat {c : Char} (h : isSchemeChar c = true) :
    c.toNat = 43 ∨ c.toNat = 45 ∨ c.toNat = 46 ∨ (48 ≤ c.toNat ∧ c.toNat ≤ 57)
    ∨ (65 ≤ c.toNat ∧ c.toNat ≤ 90) ∨ (97 ≤ c.toNat ∧ c.toNat ≤ 122) := by
  simp only [isSchemeChar, Bool.or_eq_true, Bool.and_eq_true, decide_eq_true_eq] at h
  rcases h with ((((h | h) | h) | h) | h) | h
  · omega
  · omega
  · omega
  · subst h; decide
  · subst h; decide
  · subst h; decide

theorem isSchemeChar_toLower {c : Char} (h : isSchemeChar c = true) :
    isSchemeChar (Char.toLower c) = true := by
  by_cases hu : 65 ≤ c.toNat ∧ c.toNat ≤ 90
  · have hl : (Char.toLower c).toNat = c.toNat + 32 := by
      rw [toNat_toLower, if_pos hu]
    have h2 : 97 ≤ (Char.toLower c).toNat ∧ (Char.toLower c).toNat ≤ 122 := by omega
    simp [isSchemeChar, h2.1, h2.2]
  · rw [toLower_fix_of_not_upper hu]
    exact h

theorem toLower_toNat_stable {c : Char} {m : Nat} (hm : ¬(97 ≤ m ∧ m ≤ 122))
    (h : (Char.toLower c).toNat = m) : c.toNat = m := by
  rw [toNat_toLower] at h
  by_cases hu : 65 ≤ c.toNat ∧ c.toNat ≤ 90
  · rw [if_pos hu] at h
    omega
  · rwa [if_neg hu] at h

theorem keepUrlByte_toLower {c : Char} (h : keepUrlByte c = true) :
    keepUrlByte (Char.toLower c) = true := by
  simp only [keepUrlByte, Bool.not_eq_true', Bool.or_eq_false_iff,
    decide_eq_false_iff_not] at h ⊢
  obtain ⟨⟨h1, h2⟩, h3⟩ := h
  refine ⟨⟨?_, ?_⟩, ?_⟩ <;> intro he
  · exact h1 (char_eq_of_toNat (toLower_toNat_stable (by decide) (by rw [he])))
  · exact h2 (char_eq_of_toNat (toLower_toNat_stable (by decide) (by rw [he])))
  · exact h3 (char_eq_of_toNat (toLower_toNat_stable (by decide) (by rw [he])))

theorem notNetlocDelim_toLower {c : Char} (h : notNetlocDelim c = true) :
    notNetlocDelim (Char.toLower c) = true := by
  simp only [notNetlocDelim, Bool.not_eq_true', Bool.or_eq_false_iff,
    decide_eq_false_iff_not] at h ⊢
  obtain ⟨⟨h1, h2⟩, h3⟩ := h
  refine ⟨⟨?_, ?_⟩, ?_⟩ <;> intro he
  · exact h1 (char_eq_of_toNat (toLower_toNat_stable (by decide) (by rw [he])))
  · exact h2 (char_eq_of_toNat (toLower_toNat_stable (by decide) (by rw [he])))
  · exact h3 (char_eq_of_toNat (toLower_toNat_stable (by decide) (by rw [he])))

theorem breakAtLast_eq_some {ch : Char} {l a b : List Char}
    (h : breakAtLast ch l = some (a, b)) : l = a ++ ch :: b ∧ ch ∉ b := by
  cases hbf : breakAtFirst ch l.reverse with
  | none =>
    rw [breakAtLast, hbf] at h
    cases h
  | some pr =>
    obtain ⟨rb, ra⟩ := pr
    rw [breakAtLast, hbf] at h
    injection h with h
    rw [Prod.mk.injEq] at h
    obtain ⟨ha, hb⟩ := h
    obtain ⟨hdec, hnm⟩ := breakAtFirst_eq_some hbf
    subst ha
    subst hb
    constructor
    · have hrev := congrArg List.reverse hdec
      rw [List.reverse_reverse] at hrev
      rw [hrev]
      simp
    · simpa using hnm

theorem breakAtLast_mem {ch : Char} {l : List Char} (h : ch ∈ l) :
    ∃ a b, breakAtLast ch l = some (a, b) := by
  cases hbf : breakAtFirst ch l.reverse with
  | none =>
    exact absurd (List.mem_reverse.mpr h) (breakAtFirst_eq_none.mp hbf)
  | some pr =>
    exact ⟨pr.2.reverse, pr.1.reverse, by rw [breakAtLast, hbf]⟩

theorem mem_cleanUrl {c : Char} {l : List Char} (h : c ∈ cleanUrl l) :
    keepUrlByte c = true :=
  List.of_mem_filter h

theorem cleanUrl_fix {l : List Char} (h1 : ∀ c ∈ l, keepUrlByte c = true)
    (h2 : ∀ c, l.head? = some c → isC0OrSpace c = false) : cleanUrl l = l := by
  unfold cleanUrl
  cases l with
  | nil => rfl
  | cons c t =>
    rw [List.dropWhile_cons, if_neg (by simp [h2 c rfl])]
    exact List.filter_eq_self.mpr h1

theorem splitScheme_recover {scheme url : List Char} (hs : scheme ≠ [])
    (hall : scheme.all isSchemeChar = true) (hlow : scheme.map Char.toLower = scheme) :
    splitScheme (scheme ++ ':' :: url) = (scheme, url) := by
  have hns : ':' ∉ scheme := by
    intro hm
    have := isSchemeChar_toNat (List.all_eq_true.mp hall _ hm)
    revert this
    decide
  rw [splitScheme, breakAtFirst_append_notMem _ hns]
  simp [hall, hs, hlow]

theorem splitNetloc_recover {n rest : List Char} (hn : ∀ c ∈ n, notNetlocDelim c = true)
    (hr : rest = [] ∨ rest.head? = some '/' ∨ rest.head? = some '?') :
    splitNetloc ('/' :: '/' :: (n ++ rest)) = (n, rest) := by
  have hhead : ∀ c, rest.head? = some c → notNetlocDelim c = false := by
    intro c hc
    rcases hr with h | h | h
    · rw [h] at hc
      cases hc
    · rw [h] at hc
      injection hc with hc
      rw [← hc]
      decide
    · rw [h] at hc
      injection hc with hc
      rw [← hc]
      decide
  obtain ⟨h1, h2⟩ := takeWhile_append_all hn hhead
  rw [splitNetloc]
  simp only [List.drop_succ_cons, List.drop_zero]
  rw [h1, h2]

theorem splitScheme_fst (u : List Char) :
    (splitScheme u).1 = []
    ∨ ((splitScheme u).1.all isSchemeChar = true
       ∧ (splitScheme u).1.map Char.toLower = (splitScheme u).1
       ∧ (splitScheme u).1 ≠ []) := by
  cases hbf : breakAtFirst ':' u with
  | none =>
    left
    rw [splitScheme, hbf]
  | some pr =>
    obtain ⟨pre, post⟩ := pr
    have hps : splitScheme u
        = if !pre.isEmpty && pre.all isSchemeChar then (pre.map Char.toLower, post)
          else ([], u) := by
      rw [splitScheme, hbf]
    by_cases hc : (!pre.isEmpty && pre.all isSchemeChar) = true
    · right
      rw [hps, if_pos hc]
      have hall : pre.all isSchemeChar = true := (Bool.and_eq_true .. ▸ hc).2
      have hne : pre ≠ [] := by
        have := (Bool.and_eq_true .. ▸ hc).1
        simpa using this
      refine ⟨?_, map_toLower_idem pre, by simpa using hne⟩
      rw [List.all_eq_true]
      intro c hcm
      obtain ⟨d, hd, rfl⟩ := List.mem_map.mp hcm
      exact isSchemeChar_toLower (List.all_eq_true.mp hall d hd)
    · left
      rw [hps, if_neg hc]

theorem mem_splitScheme_snd {c : Char} {u : List Char} (h : c ∈ (splitScheme u).2) :
    c ∈ u := by
  cases hbf : breakAtFirst ':' u with
  | none =>
    rw [splitScheme, hbf] at h
    exact h
  | some pr =>
    obtain ⟨pre, post⟩ := pr
    have hps : splitScheme u
        = if !pre.isEmpty && pre.all isSchemeChar then (pre.map Char.toLower, post)
          else ([], u) := by
      rw [splitScheme, hbf]
    rw [hps] at h
    by_cases hc : (!pre.isEmpty && pre.all isSchemeChar) = true
    · rw [if_pos hc] at h
      obtain ⟨hdec, _⟩ := breakAtFirst_eq_some hbf
      rw [hdec]
      simp only [List.mem_append, List.mem_cons]
      exact Or.inr (Or.inr h)
    · rw [if_neg hc] at h
      exact h

theorem mem_splitparams_fst {c : Char} {u : List Char} (h : c ∈ (splitparams u).1) :
    c ∈ u := by
  by_cases hs : '/' ∈ u
  · obtain ⟨a, b, hab⟩ := breakAtLast_mem hs
    obtain ⟨hdec, _⟩ := breakAtLast_eq_some hab
    cases hbf : breakAtFirst ';' b with
    | none =>
      have hm : splitparams u = (u, []) := by
        rw [splitparams, if_pos hs, hab]
        simp only [hbf]
      rw [hm] at h
      exact h
    | some pr =>
      obtain ⟨b1, b2⟩ := pr
      have hm : splitparams u = (a ++ '/' :: b1, b2) := by
        rw [splitparams, if_pos hs, hab]
        simp only [hbf]
      rw [hm] at h
      obtain ⟨hbdec, _⟩ := breakAtFirst_eq_some hbf
      rw [hdec, hbdec]
      simp only [List.mem_append, List.mem_cons] at h ⊢
      tauto
  · cases hbf : breakAtFirst ';' u with
    | none =>
      have hm : splitparams u = (u, []) := by
        rw [splitparams, if_neg hs]
        simp only [hbf]
      rw [hm] at h
      exact h
    | some pr =>
      obtain ⟨a, b⟩ := pr
      have hm : splitparams u = (a, b) := by
        rw [splitparams, if_neg hs]
        simp only [hbf]
      rw [hm] at h
      obtain ⟨hdec, _⟩ := breakAtFirst_eq_some hbf
      rw [hdec]
      simp [h]

theorem colon_count_map_toLower (l : List Char) :
    ((l.map Char.toLower).filter (fun c => c = ':')).length
      = (l.filter (fun c => c = ':')).length := by
  induction l with
  | nil => rfl
  | cons c t ih =>
    rw [List.map_cons, List.filter_cons, List.filter_cons]
    by_cases hc : c = ':'
    · subst hc
      rw [show Char.toLower ':' = ':' from by decide]
      simp [ih]
    · have hlc : Char.toLower c ≠ ':' := by
        intro he
        exact hc (char_eq_of_toNat (toLower_toNat_stable (by decide) (by rw [he])))
      simp [hc, hlc, ih]

theorem mem_stripDefaultPort {c : Char} {scheme n : List Char}
    (h : c ∈ stripDefaultPort scheme n) : c ∈ n := by
  by_cases hc : ':' ∈ n
  · obtain ⟨a, b, hab⟩ := breakAtLast_mem hc
    obtain ⟨hdec, _⟩ := breakAtLast_eq_some hab
    have h1 : stripDefaultPort scheme n
        = if (scheme = "http".data ∧ b = "80".data)
            ∨ (scheme = "https".data ∧ b = "443".data) then a else n := by
      rw [stripDefaultPort, if_pos hc, hab]
    rw [h1] at h
    by_cases hd : (scheme = "http".data ∧ b = "80".data)
        ∨ (scheme = "https".data ∧ b = "443".data)
    · rw [if_pos hd] at h
      rw [hdec]
      simp [h]
    · rw [if_neg hd] at h
      exact h
  · rw [stripDefaultPort, if_neg hc] at h
    exact h

theorem stripDefaultPort_lower {scheme n : List Char} (hn : n.map Char.toLower = n) :
    (stripDefaultPort scheme n).map Char.toLower = stripDefaultPort scheme n := by
  by_cases hc : ':' ∈ n
  · obtain ⟨a, b, hab⟩ := breakAtLast_mem hc
    have h1 : stripDefaultPort scheme n
        = if (scheme = "http".data ∧ b = "80".data)
            ∨ (scheme = "https".data ∧ b = "443".data) then a else n := by
      rw [stripDefaultPort, if_pos hc, hab]
    rw [h1]
    by_cases hd : (scheme = "http".data ∧ b = "80".data)
        ∨ (scheme = "https".data ∧ b = "443".data)
    · rw [if_pos hd]
      obtain ⟨hdec, _⟩ := breakAtLast_eq_some hab
      rw [hdec, List.map_append] at hn
      exact (List.append_inj hn (by simp)).1
    · rw [if_neg hd]
      exact hn
  · rw [stripDefaultPort, if_neg hc]
    exact hn

theorem stripDefaultPort_idem {scheme n : List Char}
    (h : (n.filter (fun c => c = ':')).length ≤ 1) :
    stripDefaultPort scheme (stripDefaultPort scheme n) = stripDefaultPort scheme n := by
  by_cases hc : ':' ∈ n
  · obtain ⟨a, b, hab⟩ := breakAtLast_mem hc
    obtain ⟨hdec, hnb⟩ := breakAtLast_eq_some hab
    have hna : ':' ∉ a := by
      intro hm
      rw [hdec, List.filter_append] at h
      have hfc : List.filter (fun c => decide (c = ':')) (':' :: b)
          = ':' :: List.filter (fun c => decide (c = ':')) b := by simp
      rw [hfc, List.length_append] at h
      have h1 : 0 < (a.filter (fun c => decide (c = ':'))).length :=
        List.length_pos.mpr (List.ne_nil_of_mem (List.mem_filter.mpr ⟨hm, by simp⟩))
      simp only [List.length_cons] at h
      omega
    have h1 : stripDefaultPort scheme n
        = if (scheme = "http".data ∧ b = "80".data)
            ∨ (scheme = "https".data ∧ b = "443".data) then a else n := by
      rw [stripDefaultPort, if_pos hc, hab]
    by_cases hd : (scheme = "http".data ∧ b = "80".data)
        ∨ (scheme = "https".data ∧ b = "443".data)
    · rw [h1, if_pos hd, stripDefaultPort, if_neg hna]
    · rw [h1, if_neg hd, h1, if_neg hd]
  · have hn1 : stripDefaultPort scheme n = n := by rw [stripDefaultPort, if_neg hc]
    rw [hn1]
    exact hn1

theorem stripDefaultPort_brackets {scheme n : List Char}
    (hb : ¬(('[' ∈ n ∧ ']' ∉ n) ∨ (']' ∈ n ∧ '[' ∉ n))) :
    ¬(('[' ∈ stripDefaultPort scheme n ∧ ']' ∉ stripDefaultPort scheme n)
      ∨ (']' ∈ stripDefaultPort scheme n ∧ '[' ∉ stripDefaultPort scheme n)) := by
  by_cases hc : ':' ∈ n
  · obtain ⟨a, b, hab⟩ := breakAtLast_mem hc
    obtain ⟨hdec, _⟩ := breakAtLast_eq_some hab
    have h1 : stripDefaultPort scheme n
        = if (scheme = "http".data ∧ b = "80".data)
            ∨ (scheme = "https".data ∧ b = "443".data) then a else n := by
      rw [stripDefaultPort, if_pos hc, hab]
    by_cases hd : (scheme = "http".data ∧ b = "80".data)
        ∨ (scheme = "https".data ∧ b = "443".data)
    · rw [h1, if_pos hd]
      have hbmem : ('[' : Char) ∉ ':' :: b ∧ (']' : Char) ∉ ':' :: b := by
        rcases hd with ⟨_, hb80⟩ | ⟨_, hb443⟩
        · rw [hb80]
          exact ⟨by decide, by decide⟩
        · rw [hb443]
          exact ⟨by decide, by decide⟩
      have hiff : ∀ d : Char, d ∉ ':' :: b → (d ∈ n ↔ d ∈ a) := by
        intro d hd
        rw [hdec]
        simp only [List.mem_append, List.mem_cons]
        constructor
        · rintro (h | h | h)
          · exact h
          · exact absurd (by simp [h]) hd
          · exact absurd (by simp [h] : d ∈ ':' :: b) hd
        · exact fun h => Or.inl h
      intro hcon
      apply hb
      rcases hcon with ⟨h1', h2'⟩ | ⟨h1', h2'⟩
      · left
        exact ⟨(hiff '[' hbmem.1).mpr h1', fun hm => h2' ((hiff ']' hbmem.2).mp hm)⟩
      · right
        exact ⟨(hiff ']' hbmem.2).mpr h1', fun hm => h2' ((hiff '[' hbmem.1).mp hm)⟩
    · rw [h1, if_neg hd]
      exact hb
  · rw [stripDefaultPort, if_neg hc]
    exact hb

theorem mem_normQuery {c : Char} {q : List Char} (h : c ∈ normQuery q) :
    qencChar c = true := by
  simp only [normQuery] at h
  by_cases hf : (parse_qs q).filter
      (fun kv => ¬ (kv.1.map Char.toLower) ∈ DENYLIST_PARAMS) ≠ []
  · rw [if_pos hf] at h
    exact mem_urlencode h
  · rw [if_neg hf] at h
    cases h

theorem rstripSlash_fix {x : List Char} (h : ∀ c, x.getLast? = some c → c ≠ '/') :
    rstripSlash x = x := by
  unfold rstripSlash
  cases hx : x.reverse with
  | nil =>
    have : x = [] := by simpa using congrArg List.reverse hx
    rw [this]
    rfl
  | cons c t =>
    have hc : x.getLast? = some c := by
      rw [← List.head?_reverse, hx]
      rfl
    rw [List.dropWhile_cons, if_neg (by simp [h c hc]), ← hx, List.reverse_reverse]

theorem mem_splitNetloc_fst {c : Char} {u : List Char} (h : c ∈ (splitNetloc u).1) :
    notNetlocDelim c = true ∧ c ∈ u := by
  unfold splitNetloc at h
  refine ⟨List.mem_takeWhile_imp h, ?_⟩
  have h1 := (List.takeWhile_sublist _).subset h
  exact (List.drop_sublist _ _).subset h1

theorem mem_splitNetloc_snd {c : Char} {u : List Char} (h : c ∈ (splitNetloc u).2) :
    c ∈ u := by
  unfold splitNetloc at h
  have h1 := (List.dropWhile_sublist _).subset h
  exact (List.drop_sublist _ _).subset h1

theorem pyUrlsplit_inv {l : List Char} {s : SplitParts} (h : pyUrlsplit l = .ok s) :
    (s.scheme = []
      ∨ (s.scheme.all isSchemeChar = true ∧ s.scheme.map Char.toLower = s.scheme
         ∧ s.scheme ≠ []))
    ∧ (∀ c ∈ s.netloc, notNetlocDelim c = true ∧ keepUrlByte c = true)
    ∧ ¬(('[' ∈ s.netloc ∧ ']' ∉ s.netloc) ∨ (']' ∈ s.netloc ∧ '[' ∉ s.netloc))
    ∧ (('#' : Char) ∉ s.path ∧ ('?' : Char) ∉ s.path
       ∧ ∀ c ∈ s.path, keepUrlByte c = true) := by
  have hmem2 : ∀ c ∈ (splitScheme (cleanUrl l)).2, keepUrlByte c = true :=
    fun c hc => mem_cleanUrl (mem_splitScheme_snd hc)
  simp only [pyUrlsplit] at h
  by_cases hn2 : (splitScheme (cleanUrl l)).2.take 2 = ['/', '/']
  · rw [if_pos hn2] at h
    have hnet1 : ∀ c ∈ (splitNetloc (splitScheme (cleanUrl l)).2).1,
        notNetlocDelim c = true ∧ keepUrlByte c = true := by
      intro c hc
      obtain ⟨h1, h2⟩ := mem_splitNetloc_fst hc
      exact ⟨h1, hmem2 c h2⟩
    have hu2 : ∀ c ∈ (splitNetloc (splitScheme (cleanUrl l)).2).2, keepUrlByte c = true :=
      fun c hc => hmem2 c (mem_splitNetloc_snd hc)
    generalize hnl : (splitNetloc (splitScheme (cleanUrl l)).2).1 = netloc at h hnet1
    generalize hur : (splitNetloc (splitScheme (cleanUrl l)).2).2 = u2 at h hu2
    by_cases hbr : ('[' ∈ netloc ∧ ']' ∉ netloc) ∨ (']' ∈ netloc ∧ '[' ∉ netloc)
    · rw [if_pos hbr] at h
      cases h
    · rw [if_neg hbr] at h
      cases hf : breakAtFirst '#' u2 with
      | none =>
        have hnf := breakAtFirst_eq_none.mp hf
        simp only [hf] at h
        cases hq : breakAtFirst '?' u2 with
        | none =>
          have hnq := breakAtFirst_eq_none.mp hq
          simp only [hq] at h
          rw [Except.ok.injEq] at h
          subst h
          exact ⟨splitScheme_fst (cleanUrl l), hnet1, hbr, hnf, hnq, hu2⟩
        | some qp =>
          obtain ⟨qa, qb⟩ := qp
          simp only [hq] at h
          rw [Except.ok.injEq] at h
          subst h
          obtain ⟨hqdec, hqa⟩ := breakAtFirst_eq_some hq
          refine ⟨splitScheme_fst (cleanUrl l), hnet1, hbr, ?_, hqa, ?_⟩
          · intro hm
            exact hnf (by rw [hqdec]; simp [hm])
          · intro c hc
            exact hu2 c (by rw [hqdec]; simp [hc])
      | some fp =>
        obtain ⟨fa, fb⟩ := fp
        simp only [hf] at h
        obtain ⟨hfdec, hfa⟩ := breakAtFirst_eq_some hf
        have hfmem : ∀ c ∈ fa, keepUrlByte c = true := by
          intro c hc
          exact hu2 c (by rw [hfdec]; simp [hc])
        cases hq : breakAtFirst '?' fa with
        | none =>
          have hnq := breakAtFirst_eq_none.mp hq
          simp only [hq] at h
          rw [Except.ok.injEq] at h
          subst h
          exact ⟨splitScheme_fst (cleanUrl l), hnet1, hbr, hfa, hnq, hfmem⟩
        | some qp =>
          obtain ⟨qa, qb⟩ := qp
          simp only [hq] at h
          rw [Except.ok.injEq] at h
          subst h
          obtain ⟨hqdec, hqa⟩ := breakAtFirst_eq_some hq
          refine ⟨splitScheme_fst (cleanUrl l), hnet1, hbr, ?_, hqa, ?_⟩
          · intro hm
            exact hfa (by rw [hqdec]; simp [hm])
          · intro c hc
            exact hfmem c (by rw [hqdec]; simp [hc])
  · rw [if_neg hn2] at h
    dsimp only at h
    by_cases hbr : ('[' ∈ ([] : List Char) ∧ ']' ∉ ([] : List Char))
        ∨ (']' ∈ ([] : List Char) ∧ '[' ∉ ([] : List Char))
    · rw [if_pos hbr] at h
      cases h
    · rw [if_neg hbr] at h
      generalize hur : (splitScheme (cleanUrl l)).2 = u2 at h hmem2
      cases hf : breakAtFirst '#' u2 with
      | none =>
        have hnf := breakAtFirst_eq_none.mp hf
        simp only [hf] at h
        cases hq : breakAtFirst '?' u2 with
        | none =>
          have hnq := breakAtFirst_eq_none.mp hq
          simp only [hq] at h
          rw [Except.ok.injEq] at h
          subst h
          exact ⟨splitScheme_fst (cleanUrl l), by simp, by simp, hnf, hnq, hmem2⟩
        | some qp =>
          obtain ⟨qa, qb⟩ := qp
          simp only [hq] at h
          rw [Except.ok.injEq] at h
          subst h
          obtain ⟨hqdec, hqa⟩ := breakAtFirst_eq_some hq
          refine ⟨splitScheme_fst (cleanUrl l), by simp, by simp, ?_, hqa, ?_⟩
          · intro hm
            exact hnf (by rw [hqdec]; simp [hm])
          · intro c hc
            exact hmem2 c (by rw [hqdec]; simp [hc])
      | some fp =>
        obtain ⟨fa, fb⟩ := fp
        simp only [hf] at h
        obtain ⟨hfdec, hfa⟩ := breakAtFirst_eq_some hf
        have hfmem : ∀ c ∈ fa, keepUrlByte c = true := by
          intro c hc
          exact hmem2 c (by rw [hfdec]; simp [hc])
        cases hq : breakAtFirst '?' fa with
        | none =>
          have hnq := breakAtFirst_eq_none.mp hq
          simp only [hq] at h
          rw [Except.ok.injEq] at h
          subst h
          exact ⟨splitScheme_fst (cleanUrl l), by simp, by simp, hfa, hnq, hfmem⟩
        | some qp =>
          obtain ⟨qa, qb⟩ := qp
          simp only [hq] at h
          rw [Except.ok.injEq] at h
          subst h
          obtain ⟨hqdec, hqa⟩ := breakAtFirst_eq_some hq
          refine ⟨splitScheme_fst (cleanUrl l), by simp, by simp, ?_, hqa, ?_⟩
          · intro hm
            exact hfa (by rw [hqdec]; simp [hm])
          · intro c hc
            exact hfmem c (by rw [hqdec]; simp [hc])

theorem pyUrlparse_inv {l : List Char} {p : ParseParts} (h : pyUrlparse l = .ok p) :
    (p.scheme = []
      ∨ (p.scheme.all isSchemeChar = true ∧ p.scheme.map Char.toLower = p.scheme
         ∧ p.scheme ≠ []))
    ∧ (∀ c ∈ p.netloc, notNetlocDelim c = true ∧ keepUrlByte c = true)
    ∧ ¬(('[' ∈ p.netloc ∧ ']' ∉ p.netloc) ∨ (']' ∈ p.netloc ∧ '[' ∉ p.netloc))
    ∧ (('#' : Char) ∉ p.path ∧ ('?' : Char) ∉ p.path
       ∧ ∀ c ∈ p.path, keepUrlByte c = true) := by
  cases hsp : pyUrlsplit l with
  | error e =>
    rw [pyUrlparse, hsp] at h
    cases h
  | ok s =>
    obtain ⟨hsch, hnet, hbr, hp1, hp2, hp3⟩ := pyUrlsplit_inv hsp
    simp only [pyUrlparse, hsp] at h
    rw [Except.ok.injEq] at h
    subst h
    by_cases hsc : ';' ∈ s.path
    · simp only [if_pos hsc]
      exact ⟨hsch, hnet, hbr, fun hm => hp1 (mem_splitparams_fst hm),
        fun hm => hp2 (mem_splitparams_fst hm),
        fun c hc => hp3 c (mem_splitparams_fst hc)⟩
    · simp only [if_neg hsc]
      exact ⟨hsch, hnet, hbr, hp1, hp2, hp3⟩

theorem parse_unparse (ps pn pp pq : List Char)
    (hs : ps ≠ []) (hsall : ps.all isSchemeChar = true)
    (hslow : ps.map Char.toLower = ps)
    (hn : pn ≠ []) (hnall : ∀ c ∈ pn, notNetlocDelim c = true)
    (hnk : ∀ c ∈ pn, keepUrlByte c = true)
    (hbr : ¬(('[' ∈ pn ∧ ']' ∉ pn) ∨ (']' ∈ pn ∧ '[' ∉ pn)))
    (hp0 : pp = [] ∨ pp.head? = some '/')
    (hph : ('#' : Char) ∉ pp) (hpq : ('?' : Char) ∉ pp) (hpsemi : (';' : Char) ∉ pp)
    (hpk : ∀ c ∈ pp, keepUrlByte c = true)
    (hq : ∀ c ∈ pq, qencChar c = true) :
    pyUrlparse (pyUrlunparse ⟨ps, pn, pp, [], pq, []⟩)
      = .ok ⟨ps, pn, pp, [], pq, []⟩ := by
  have hqt_mem : ∀ c ∈ (if pq = [] then ([] : List Char) else '?' :: pq),
      c = '?' ∨ c ∈ pq := by
    intro c hc
    by_cases hq0 : pq = []
    · rw [if_pos hq0] at hc
      cases hc
    · rw [if_neg hq0] at hc
      rcases List.mem_cons.mp hc with hc | hc
      · exact Or.inl hc
      · exact Or.inr hc
  have hqt_head : (if pq = [] then ([] : List Char) else '?' :: pq) = []
      ∨ (if pq = [] then ([] : List Char) else '?' :: pq).head? = some '?' := by
    by_cases hq0 : pq = []
    · rw [if_pos hq0]
      exact Or.inl rfl
    · rw [if_neg hq0]
      exact Or.inr rfl
  have hadj : ((if pp ≠ [] ∧ pp.head? ≠ some '/' then '/' :: pp else pp) : List Char)
      = pp := by
    rcases hp0 with h | h
    · rw [if_neg]
      simp [h]
    · rw [if_neg]
      simp [h]
  have hnetc : (!pn.isEmpty || decide (pp.take 2 = ['/', '/'])) = true := by
    cases pn with
    | nil => exact absurd rfl hn
    | cons a b => simp
  have hsne : ps.isEmpty = false := by
    cases ps with
    | nil => exact absurd rfl hs
    | cons a b => rfl
  have hqu : ∀ u : List Char,
      (if !pq.isEmpty then u ++ '?' :: pq else u)
        = u ++ (if pq = [] then [] else '?' :: pq) := by
    intro u
    cases pq with
    | nil => simp
    | cons a b => simp
  have hu : pyUrlunparse ⟨ps, pn, pp, [], pq, []⟩
      = ps ++ ':' :: ('/' :: '/' :: (pn ++ (pp ++ (if pq = [] then [] else '?' :: pq)))) := by
    have hfe : ∀ a b : List Char, (if (false = true) then a else b) = b := fun a b => rfl
    have hte : ∀ a b : List Char, (if (true = true) then a else b) = a := fun a b => rfl
    simp only [pyUrlunparse, pyUrlunsplit, List.isEmpty_nil, Bool.not_true,
      Bool.not_false, hfe, hqu]
    rw [hnetc, hsne]
    simp only [Bool.not_false, hte, if_true, hadj]
    simp [List.append_assoc]
  have hkeep : ∀ c ∈ ps ++ ':' :: ('/' :: '/'
      :: (pn ++ (pp ++ (if pq = [] then ([] : List Char) else '?' :: pq)))),
      keepUrlByte c = true := by
    intro c hc
    simp only [List.mem_append, List.mem_cons] at hc
    rcases hc with hc | hc | hc | hc | hc | hc | hc
    · have := isSchemeChar_toNat (List.all_eq_true.mp hsall c hc)
      exact keepUrlByte_of_ge (by omega)
    · subst hc
      decide
    · subst hc
      decide
    · subst hc
      decide
    · exact hnk c hc
    · exact hpk c hc
    · rcases hqt_mem c hc with hc' | hc'
      · subst hc'
        decide
      · have := qencChar_toNat (hq c hc')
        exact keepUrlByte_of_ge (by omega)
  have hhead : ∀ c, (ps ++ ':' :: ('/' :: '/'
      :: (pn ++ (pp ++ (if pq = [] then ([] : List Char) else '?' :: pq))))).head? = some c
      → isC0OrSpace c = false := by
    intro c hc
    obtain ⟨c0, st, hps⟩ := List.exists_cons_of_ne_nil hs
    rw [hps, List.cons_append, List.head?_cons] at hc
    injection hc with hc
    subst hc
    have hc0 : c0 ∈ ps := by
      rw [hps]
      simp
    have := isSchemeChar_toNat (List.all_eq_true.mp hsall c0 hc0)
    exact isC0OrSpace_false_of (by omega)
  have hclean := cleanUrl_fix hkeep hhead
  have hrecover := @splitScheme_recover ps
    ('/' :: '/' :: (pn ++ (pp ++ (if pq = [] then ([] : List Char) else '?' :: pq))))
    hs hsall hslow
  have hr : pp ++ (if pq = [] then ([] : List Char) else '?' :: pq) = []
      ∨ (pp ++ (if pq = [] then ([] : List Char) else '?' :: pq)).head? = some '/'
      ∨ (pp ++ (if pq = [] then ([] : List Char) else '?' :: pq)).head? = some '?' := by
    rcases hp0 with h | h
    · subst h
      rw [List.nil_append]
      rcases hqt_head with h | h
      · exact Or.inl h
      · exact Or.inr (Or.inr h)
    · cases pp with
      | nil => cases h
      | cons a t =>
        rw [List.head?_cons] at h
        injection h with h
        subst h
        exact Or.inr (Or.inl rfl)
  have hnetsplit := splitNetloc_recover hnall hr
  have hhash : breakAtFirst '#'
      (pp ++ (if pq = [] then ([] : List Char) else '?' :: pq)) = none := by
    rw [breakAtFirst_eq_none]
    intro hm
    rcases List.mem_append.mp hm with hm | hm
    · exact hph hm
    · rcases hqt_mem _ hm with hm' | hm'
      · cases hm'
      · have := qencChar_toNat (hq _ hm')
        revert this
        decide
  have hsplitu : pyUrlsplit (ps ++ ':' :: ('/' :: '/'
      :: (pn ++ (pp ++ (if pq = [] then ([] : List Char) else '?' :: pq)))))
      = .ok ⟨ps, pn, pp, pq, []⟩ := by
    simp only [pyUrlsplit, hclean, hrecover]
    rw [if_pos (show (('/' : Char) :: '/'
      :: (pn ++ (pp ++ (if pq = [] then ([] : List Char) else '?' :: pq)))).take 2
        = ['/', '/'] from rfl)]
    rw [hnetsplit]
    rw [if_neg hbr]
    simp only [hhash]
    by_cases hq0 : pq = []
    · subst hq0
      simp [breakAtFirst_eq_none.mpr hpq]
    · simp [if_neg hq0, breakAtFirst_append_notMem _ hpq]
  have hfin : pyUrlparse (ps ++ ':' :: ('/' :: '/'
      :: (pn ++ (pp ++ (if pq = [] then ([] : List Char) else '?' :: pq)))))
      = .ok ⟨ps, pn, pp, [], pq, []⟩ := by
    simp only [pyUrlparse, hsplitu]
    rw [if_neg hpsemi]
  rw [hu]
  exact hfin

theorem pyUrlunparse_adjust (ps pn pp1 pq : List Char) (hn : pn ≠ []) :
    pyUrlunparse ⟨ps, pn, pp1, [], pq, []⟩
      = pyUrlunparse ⟨ps, pn,
          (if pp1 ≠ [] ∧ pp1.head? ≠ some '/' then '/' :: pp1 else pp1), [], pq, []⟩ := by
  by_cases h : pp1 ≠ [] ∧ pp1.head? ≠ some '/'
  · rw [if_pos h]
    obtain ⟨a, b, hab⟩ := List.exists_cons_of_ne_nil hn
    subst hab
    have hfe : ∀ x y : List Char, (if (false = true) then x else y) = y := fun x y => rfl
    have hte : ∀ x y : List Char, (if (true = true) then x else y) = x := fun x y => rfl
    simp only [pyUrlunparse, pyUrlunsplit, List.isEmpty_nil, List.isEmpty_cons,
      Bool.not_true, Bool.not_false, Bool.true_or, hfe, hte]
    rw [if_pos h, if_neg (show ¬(('/' :: pp1) ≠ [] ∧ ('/' :: pp1).head? ≠ some '/') by simp)]
    simp only [if_true]
  · rw [if_neg h]

theorem normalizeChars_idem {l : List Char} {p : ParseParts}
    (h1 : pyUrlparse l = .ok p) (h2 : p.scheme ≠ [])
    (h3 : stripDefaultPort (p.scheme.map Char.toLower) (p.netloc.map Char.toLower) ≠ [])
    (h4 : (p.netloc.filter (fun c => c = ':')).length ≤ 1)
    (h5 : (';' : Char) ∉ p.path) (h6 : p.params = []) :
    normalizeChars (normalizeChars l) = normalizeChars l := by
  obtain ⟨hsch, hnet, hbrk, hph, hpq, hpk⟩ := pyUrlparse_inv h1
  rcases hsch with hsch0 | ⟨hsall, hslow, _⟩
  · exact absurd hsch0 h2
  rw [hslow] at h3
  have hl : l ≠ [] := by
    intro he
    subst he
    rw [show pyUrlparse [] = Except.ok ⟨[], [], [], [], [], []⟩ from rfl] at h1
    injection h1 with h1
    rw [← h1] at h2
    exact h2 rfl
  have hnorm : normalizeChars l = pyUrlunparse (normParts p) := by
    rw [normalizeChars, if_neg hl, h1]
  have hnp : normParts p
      = ⟨p.scheme, stripDefaultPort p.scheme (p.netloc.map Char.toLower),
         rstripSlash p.path, [], normQuery p.query, []⟩ := by
    rw [show normParts p
      = ⟨p.scheme.map Char.toLower,
         stripDefaultPort (p.scheme.map Char.toLower) (p.netloc.map Char.toLower),
         rstripSlash p.path, p.params, normQuery p.query, []⟩ from rfl, hslow, h6]
  have hadj_eq : pyUrlunparse ⟨p.scheme,
        stripDefaultPort p.scheme (p.netloc.map Char.toLower),
        rstripSlash p.path, [], normQuery p.query, []⟩
      = pyUrlunparse ⟨p.scheme,
        stripDefaultPort p.scheme (p.netloc.map Char.toLower),
        (if rstripSlash p.path ≠ [] ∧ (rstripSlash p.path).head? ≠ some '/'
         then '/' :: rstripSlash p.path else rstripSlash p.path),
        [], normQuery p.query, []⟩ :=
    pyUrlunparse_adjust _ _ _ _ h3
  have hnall1 : ∀ c ∈ stripDefaultPort p.scheme (p.netloc.map Char.toLower),
      notNetlocDelim c = true := by
    intro c hc
    obtain ⟨d, hd, rfl⟩ := List.mem_map.mp (mem_stripDefaultPort hc)
    exact notNetlocDelim_toLower (hnet d hd).1
  have hnk1 : ∀ c ∈ stripDefaultPort p.scheme (p.netloc.map Char.toLower),
      keepUrlByte c = true := by
    intro c hc
    obtain ⟨d, hd, rfl⟩ := List.mem_map.mp (mem_stripDefaultPort hc)
    exact keepUrlByte_toLower (hnet d hd).2
  have hbrk1 : ¬(('[' ∈ stripDefaultPort p.scheme (p.netloc.map Char.toLower)
        ∧ ']' ∉ stripDefaultPort p.scheme (p.netloc.map Char.toLower))
      ∨ (']' ∈ stripDefaultPort p.scheme (p.netloc.map Char.toLower)
        ∧ '[' ∉ stripDefaultPort p.scheme (p.netloc.map Char.toLower))) := by
    apply stripDefaultPort_brackets
    rw [mem_map_toLower_iff (by decide) (by decide),
      mem_map_toLower_iff (by decide) (by decide)]
    exact hbrk
  have hpadj0 : (if rstripSlash p.path ≠ [] ∧ (rstripSlash p.path).head? ≠ some '/'
        then '/' :: rstripSlash p.path else rstripSlash p.path) = []
      ∨ (if rstripSlash p.path ≠ [] ∧ (rstripSlash p.path).head? ≠ some '/'
        then '/' :: rstripSlash p.path else rstripSlash p.path).head? = some '/' := by
    by_cases h : rstripSlash p.path ≠ [] ∧ (rstripSlash p.path).head? ≠ some '/'
    · rw [if_pos h]
      exact Or.inr rfl
    · rw [if_neg h]
      push_neg at h
      by_cases hpe : rstripSlash p.path = []
      · exact Or.inl hpe
      · exact Or.inr (h hpe)
  have hmem_padj : ∀ c ∈ (if rstripSlash p.path ≠ [] ∧ (rstripSlash p.path).head? ≠ some '/'
        then '/' :: rstripSlash p.path else rstripSlash p.path),
      c ∈ p.path ∨ c = '/' := by
    intro c hc
    by_cases h : rstripSlash p.path ≠ [] ∧ (rstripSlash p.path).head? ≠ some '/'
    · rw [if_pos h] at hc
      rcases List.mem_cons.mp hc with hc | hc
      · exact Or.inr hc
      · exact Or.inl (rstripSlash_subset hc)
    · rw [if_neg h] at hc
      exact Or.inl (rstripSlash_subset hc)
  have hph1 : ('#' : Char) ∉ (if rstripSlash p.path ≠ []
        ∧ (rstripSlash p.path).head? ≠ some '/'
        then '/' :: rstripSlash p.path else rstripSlash p.path) := by
    intro hm
    rcases hmem_padj _ hm with hm | hm
    · exact hph hm
    · exact absurd hm (by decide)
  have hpq1 : ('?' : Char) ∉ (if rstripSlash p.path ≠ []
        ∧ (rstripSlash p.path).head? ≠ some '/'
        then '/' :: rstripSlash p.path else rstripSlash p.path) := by
    intro hm
    rcases hmem_padj _ hm with hm | hm
    · exact hpq hm
    · exact absurd hm (by decide)
  have hpsemi1 : (';' : Char) ∉ (if rstripSlash p.path ≠ []
        ∧ (rstripSlash p.path).head? ≠ some '/'
        then '/' :: rstripSlash p.path else rstripSlash p.path) := by
    intro hm
    rcases hmem_padj _ hm with hm | hm
    · exact h5 hm
    · exact absurd hm (by decide)
  have hpk1 : ∀ c ∈ (if rstripSlash p.path ≠ [] ∧ (rstripSlash p.path).head? ≠ some '/'
        then '/' :: rstripSlash p.path else rstripSlash p.path),
      keepUrlByte c = true := by
    intro c hc
    rcases hmem_padj _ hc with hc | hc
    · exact hpk c hc
    · subst hc
      decide
  have hq1e : ∀ c ∈ normQuery p.query, qencChar c = true :=
    fun c hc => mem_normQuery hc
  have hAparse := parse_unparse p.scheme
    (stripDefaultPort p.scheme (p.netloc.map Char.toLower))
    (if rstripSlash p.path ≠ [] ∧ (rstripSlash p.path).head? ≠ some '/'
     then '/' :: rstripSlash p.path else rstripSlash p.path)
    (normQuery p.query)
    h2 hsall hslow h3 hnall1 hnk1 hbrk1 hpadj0 hph1 hpq1 hpsemi1 hpk1 hq1e
  have hlow1 : (stripDefaultPort p.scheme (p.netloc.map Char.toLower)).map Char.toLower
      = stripDefaultPort p.scheme (p.netloc.map Char.toLower) :=
    stripDefaultPort_lower (map_toLower_idem _)
  have hidem : stripDefaultPort (p.scheme.map Char.toLower)
      ((stripDefaultPort p.scheme (p.netloc.map Char.toLower)).map Char.toLower)
      = stripDefaultPort p.scheme (p.netloc.map Char.toLower) := by
    rw [hslow, hlow1]
    apply stripDefaultPort_idem
    rw [colon_count_map_toLower]
    exact h4
  have hrs : rstripSlash (if rstripSlash p.path ≠ []
        ∧ (rstripSlash p.path).head? ≠ some '/'
        then '/' :: rstripSlash p.path else rstripSlash p.path)
      = (if rstripSlash p.path ≠ [] ∧ (rstripSlash p.path).head? ≠ some '/'
        then '/' :: rstripSlash p.path else rstripSlash p.path) := by
    by_cases h : rstripSlash p.path ≠ [] ∧ (rstripSlash p.path).head? ≠ some '/'
    · rw [if_pos h]
      apply rstripSlash_fix
      intro c hc
      obtain ⟨a, t, hat⟩ := List.exists_cons_of_ne_nil h.1
      rw [hat, List.getLast?_cons_cons, ← hat] at hc
      exact rstripSlash_getLast hc
    · rw [if_neg h]
      exact rstripSlash_idem p.path
  have hqfix : normQuery (normQuery p.query) = normQuery p.query := normQuery_fix p.query
  have hBfix : normParts ⟨p.scheme,
        stripDefaultPort p.scheme (p.netloc.map Char.toLower),
        (if rstripSlash p.path ≠ [] ∧ (rstripSlash p.path).head? ≠ some '/'
         then '/' :: rstripSlash p.path else rstripSlash p.path),
        [], normQuery p.query, []⟩
      = ⟨p.scheme,
        stripDefaultPort p.scheme (p.netloc.map Char.toLower),
        (if rstripSlash p.path ≠ [] ∧ (rstripSlash p.path).head? ≠ some '/'
         then '/' :: rstripSlash p.path else rstripSlash p.path),
        [], normQuery p.query, []⟩ := by
    simp only [normParts, ParseParts.mk.injEq]
    exact ⟨hslow, by rw [hidem], hrs, trivial, hqfix, trivial⟩
  have hune : pyUrlunparse ⟨p.scheme,
        stripDefaultPort p.scheme (p.netloc.map Char.toLower),
        (if rstripSlash p.path ≠ [] ∧ (rstripSlash p.path).head? ≠ some '/'
         then '/' :: rstripSlash p.path else rstripSlash p.path),
        [], normQuery p.query, []⟩ ≠ [] := by
    intro he
    rw [he, show pyUrlparse [] = Except.ok ⟨[], [], [], [], [], []⟩ from rfl] at hAparse
    injection hAparse with hA
    have := congrArg ParseParts.scheme hA
    exact h2 this.symm
  rw [hnorm, hnp, hadj_eq, normalizeChars, if_neg hune]
  simp only [hAparse, hBfix]

/-- C5: URL normalization idempotence (amended).  `normalize_url` is
idempotent on every URL that parses successfully with a nonempty scheme, a
netloc that holds at most one colon and keeps a nonempty host after
default-port stripping, and a params-free path without `';'`.  The claim's
universal form over all strings (well-formed or malformed) is refuted by
`normalize_url_idem_counterexample`: a netloc with two colons loses one
default-port suffix per application. -/
theorem normalize_url_idem (s : String) (p : ParseParts)
    (h1 : pyUrlparse s.data = .ok p) (h2 : p.scheme ≠ [])
    (h3 : stripDefaultPort (p.scheme.map Char.toLower) (p.netloc.map Char.toLower) ≠ [])
    (h4 : (p.netloc.filter (fun c => c = ':')).length ≤ 1)
    (h5 : (';' : Char) ∉ p.path) (h6 : p.params = []) :
    normalize_url (normalize_url s) = normalize_url s := by
  show (⟨normalizeChars (normalizeChars s.data)⟩ : String) = ⟨normalizeChars s.data⟩
  rw [normalizeChars_idem h1 h2 h3 h4 h5 h6]

/-- C5 counterexample: `normalize_url` is not idempotent on every string.
For `https://h:443:443/x` the default-port strip removes one `:443` suffix
per application: the first pass yields `https://h:443/x`, the second
`https://h/x`. -/
theorem normalize_url_idem_counterexample :
    normalize_url "https://h:443:443/x" = "https://h:443/x"
    ∧ normalize_url (normalize_url "https://h:443:443/x") = "https://h/x"
    ∧ normalize_url (normalize_url "https://h:443:443/x")
        ≠ normalize_url "https://h:443:443/x" :=
  ⟨rfl, rfl, by decide⟩

/-- C5 witness: the claim's example URL normalizes to
`https://example.com/path?keep=1` and the amended idempotence theorem
applies to it. -/
theorem normalize_url_idem_witness :
    normalize_url "https://Example.com:443/path/?utm_source=x&keep=1#frag"
      = "https://example.com/path?keep=1"
    ∧ normalize_url (normalize_url "https://Example.com:443/path/?utm_source=x&keep=1#frag")
      = normalize_url "https://Example.com:443/path/?utm_source=x&keep=1#frag" :=
  ⟨rfl,
   normalize_url_idem "https://Example.com:443/path/?utm_source=x&keep=1#frag"
     ⟨"https".data, "Example.com:443".data, "/path/".data, [],
      "utm_source=x&keep=1".data, "frag".data⟩
     rfl (by decide) (by decide) (by decide) (by decide) rfl⟩

/-- C6: ATS URL collapse.  `normalize_ats_url` maps the Greenhouse job URL
to its board root `https://boards.greenhouse.io/acme`, the Teamtailor job
URL to `https://acme.teamtailor.com/jobs`, and returns `none` for every
non-empty URL that parses and whose lowercased host matches none of the
seven hosted-ATS substring patterns. -/
theorem ats_url_collapse :
    normalize_ats_url "https://boards.greenhouse.io/acme/jobs/12345"
      = .ok (some "https://boards.greenhouse.io/acme")
    ∧ normalize_ats_url "https://acme.teamtailor.com/jobs/9"
      = .ok (some "https://acme.teamtailor.com/jobs")
    ∧ ∀ (url : String) (p : ParseParts), url ≠ "" → pyUrlparse url.data = .ok p →
        pyInL "boards.greenhouse.io".data (p.netloc.map Char.toLower) = false →
        pyInL "jobs.lever.co".data (p.netloc.map Char.toLower) = false →
        pyInL "jobs.ashbyhq.com".data (p.netloc.map Char.toLower) = false →
        pyInL "apply.workable.com".data (p.netloc.map Char.toLower) = false →
        pyInL "careers.smartrecruiters.com".data (p.netloc.map Char.toLower) = false →
        pyInL ".teamtailor.com".data (p.netloc.map Char.toLower) = false →
        pyInL ".recruitee.com".data (p.netloc.map Char.toLower) = false →
        normalize_ats_url url = .ok none := by
  refine ⟨rfl, rfl, ?_⟩
  intro url p hne hp h1 h2 h3 h4 h5 h6 h7
  rw [normalize_ats_url, if_neg hne]
  simp only [hp, h1, h2, h3, h4, h5, h6, h7]
  rfl

/-- C6 witness: `https://acme.com/careers` matches none of the seven ATS
hosts, so the ATS normalizer returns `none` for it. -/
theorem ats_url_collapse_witness :
    normalize_ats_url "https://acme.com/careers" = .ok none :=
  ats_url_collapse.2.2 "https://acme.com/careers"
    ⟨"https".data, "acme.com".data, "/careers".data, [], [], []⟩
    (by decide) rfl (by decide) (by decide) (by decide) (by decide) (by decide)
    (by decide) (by decide)

/-- C7: trailing-slash rule (amended).  `normalize_url` strips all
trailing slashes from the path, not exactly one: the normalized output of
every successfully parsed URL is built from components whose path is
`path.rstrip("/")`, and that path never ends in `'/'`.  The claim that a
path ending in `//` keeps a single trailing slash is refuted by
`trailing_slash_counterexample`. -/
theorem trailing_slash_rule {l : List Char} {p : ParseParts}
    (h1 : pyUrlparse l = .ok p) (hl : l ≠ []) :
    normalizeChars l = pyUrlunparse (normParts p)
    ∧ (normParts p).path = rstripSlash p.path
    ∧ ∀ c, ((normParts p).path).getLast? = some c → c ≠ '/' := by
  refine ⟨by rw [normalizeChars, if_neg hl, h1], rfl, ?_⟩
  intro c hc
  exact rstripSlash_getLast hc

/-- C7 counterexample: a URL whose path ends in `//` normalizes to a path
with no trailing slash at all, not to one ending in a single slash. -/
theorem trailing_slash_counterexample :
    normalize_url "https://example.com/a//" = "https://example.com/a"
    ∧ normalize_url "https://example.com/a//" ≠ "https://example.com/a/" :=
  ⟨rfl, by decide⟩

/-- C7 witness: the amended trailing-slash theorem applied to
`https://example.com/a//`. -/
theorem trailing_slash_rule_witness :
    normalizeChars "https://example.com/a//".data
      = pyUrlunparse (normParts
          ⟨"https".data, "example.com".data, "/a//".data, [], [], []⟩)
    ∧ (normParts ⟨"https".data, "example.com".data, "/a//".data, [], [], []⟩).path
      = rstripSlash "/a//".data
    ∧ ∀ c, ((normParts
          ⟨"https".data, "example.com".data, "/a//".data, [], [], []⟩).path).getLast?
        = some c → c ≠ '/' :=
  trailing_slash_rule rfl (by decide)

end LeadEngine
